import Mathlib

/-! # Abstract-sharing analysis of `mtrace-tools/asharing.hh`

A shallow embedding of the scope tracker (`AbstractSharing::CallStack`) and of the
pairwise sharing detector (`AbstractSharing::exit`, `shares`, `intersects`,
`shared_to_json`), followed by theorems about them.

Conventions of the embedding:

* `uint64_t` values are natural numbers; the only arithmetic the tracker performs on
  them is `guest_addr & ~3`, which is embedded with the 64-bit constant
  `0xFFFFFFFFFFFFFFFC`, and the `access - base` of `to_json`, taken modulo `2^64`.
* `std::set<string>` is a strictly ascending `List String`; `std::map<uint64_t,
  PhysicalAccess>` is a `List (Nat × PhysicalAccess)` strictly ascending in its keys.
  Iterating a container walks the list from its head, so `begin()/end()` ranges are
  lists.
* `std::vector<Ascope>` is a list whose last element is `back()`.
* `die(...)` and the undefined `back()` of an empty vector are the two errors of
  `Err`; everything else returns a new state.
* The `int` counters of `exit` are natural numbers: they only count upwards from zero
  and are assumed to stay below `2^31`.
-/

namespace AbstractSharing

/-! ## Containers -/

/-- The `operator<` of `std::string`: lexicographic comparison of the characters. -/
def string_lt (a b : String) : Bool :=
  decide (a.toList < b.toList)

/-- The `insert` of `std::set<string>`: ordered insertion, an equal element is kept. -/
def set_insert (x : String) : List String → List String
  | [] => [x]
  | y :: ys =>
    if string_lt x y then x :: y :: ys
    else if string_lt y x then y :: set_insert x ys
    else y :: ys

/-- The `erase(key)` of `std::set<string>`. -/
def set_erase (x : String) (s : List String) : List String :=
  s.filter (fun y => decide (y ≠ x))

/-- The `count(key)` of `std::set<string>`, as a truth value. -/
def set_count (x : String) (s : List String) : Bool :=
  decide (x ∈ s)

/-- The `count(key)` of `std::map`, as a truth value. -/
def map_count {β : Type} (k : Nat) (m : List (Nat × β)) : Bool :=
  m.any (fun e => decide (e.1 = k))

/-- The statement `m[k] = v` of `std::map`: ordered insertion, or overwriting the value
already stored under `k`. -/
def map_assign {β : Type} (k : Nat) (v : β) : List (Nat × β) → List (Nat × β)
  | [] => [(k, v)]
  | e :: es =>
    if k < e.1 then (k, v) :: e :: es
    else if e.1 < k then e :: map_assign k v es
    else (k, v) :: es

/-- The `erase(key)` of `std::map`. -/
def map_erase {β : Type} (k : Nat) (m : List (Nat × β)) : List (Nat × β) :=
  m.filter (fun e => decide (e.1 ≠ k))

/-- The value stored under a key (`find`), if any. -/
def map_find {β : Type} (k : Nat) : List (Nat × β) → Option β
  | [] => none
  | e :: es => if e.1 = k then some e.2 else map_find k es

/-- The key set of a map, in iteration order. -/
def keys {β : Type} (m : List (Nat × β)) : List Nat :=
  m.map Prod.fst

/-! ## Data model -/

/-- The record `struct PhysicalAccess`. -/
structure PhysicalAccess where
  type : String
  base : Nat
  access : Nat
  pc : Nat
deriving DecidableEq, Repr

/-- The comparison `PhysicalAccess::operator<`: by the `access` field. -/
def PhysicalAccess.lt (a o : PhysicalAccess) : Bool :=
  decide (a.access < o.access)

/-- The `operator<` of `std::pair<const uint64_t, PhysicalAccess>`, the value type of the
concrete maps: lexicographic, first the key, then `PhysicalAccess::operator<`. -/
def pair_lt (p q : Nat × PhysicalAccess) : Bool :=
  decide (p.1 < q.1) || (!decide (q.1 < p.1) && p.2.lt q.2)

/-- The class `Ascope`. -/
structure Ascope where
  name_ : String
  cpu_ : Int
  aread_ : List String
  awrite_ : List String
  read_ : List (Nat × PhysicalAccess)
  write_ : List (Nat × PhysicalAccess)
deriving DecidableEq, Repr

/-- The constructor `Ascope(name, cpu)`: all four containers empty. -/
def Ascope.new (name : String) (cpu : Int) : Ascope :=
  { name_ := name, cpu_ := cpu, aread_ := [], awrite_ := [], read_ := [], write_ := [] }

/-- The values of `mtrace_access_t` the tracker distinguishes; `other` stands for every
value outside the three known kinds. -/
inductive mtrace_access_t where
  | mtrace_access_ld
  | mtrace_access_st
  | mtrace_access_iw
  | other (code : Nat)
deriving DecidableEq, Repr

/-- The fields of `mtrace_ascope_entry` the tracker reads. -/
structure mtrace_ascope_entry where
  exit : Bool
  name : String
  cpu : Int
deriving DecidableEq, Repr

/-- The fields of `mtrace_avar_entry` the tracker reads. -/
structure mtrace_avar_entry where
  name : String
  write : Bool
deriving DecidableEq, Repr

/-- The fields of `mtrace_access_entry` the tracker reads. -/
structure mtrace_access_entry where
  access_type : mtrace_access_t
  guest_addr : Nat
  pc : Nat
deriving DecidableEq, Repr

/-- The two ways a handler fails to return a state: `die(...)`, and the undefined
behaviour of `stack_.back()` on an empty vector. -/
inductive Err where
  | die (msg : String)
  | undefined
deriving DecidableEq, Repr

/-- The external collaborators the code calls: `mtrace_label_map.object`,
`resolve_type_offset` and `addr2line->function_description`. -/
structure Services where
  object : Nat → Option (String × Nat)
  resolve_type_offset : String → Nat → Nat → Nat → String
  function_description : Nat → String

/-! ## `CallStack` -/

/-- The class `CallStack`: its vector of active scopes, `back()` last. -/
structure CallStack where
  stack_ : List Ascope
deriving DecidableEq, Repr

/-- The method `CallStack::pop`, on the stack and the registry `a_->scopes_`. -/
def CallStack.pop (cs : CallStack) (scopes_ : List Ascope) :
    Except Err (CallStack × List Ascope) :=
  match cs.stack_.getLast? with
  | none => .error Err.undefined
  | some cur =>
    let scopes :=
      if !cur.aread_.isEmpty || !cur.awrite_.isEmpty then scopes_ ++ [cur] else scopes_
    .ok ({ stack_ := cs.stack_.dropLast }, scopes)

/-- The method `CallStack::handle(const mtrace_ascope_entry *)`. -/
def CallStack.handle_ascope (cs : CallStack) (scopes_ : List Ascope)
    (ascope : mtrace_ascope_entry) : Except Err (CallStack × List Ascope) :=
  if ascope.exit then cs.pop scopes_
  else .ok ({ stack_ := cs.stack_ ++ [Ascope.new ascope.name ascope.cpu] }, scopes_)

/-- The body of `handle(const mtrace_avar_entry *)` on `cur`, the scope at `back()`. -/
def avar_scope (avar : mtrace_avar_entry) (cur : Ascope) : Ascope :=
  let var := avar.name
  if avar.write then
    { cur with awrite_ := set_insert var cur.awrite_, aread_ := set_erase var cur.aread_ }
  else
    if !set_count var cur.awrite_ then
      { cur with aread_ := set_insert var cur.aread_ }
    else cur

/-- The method `CallStack::handle(const mtrace_avar_entry *)`. -/
def CallStack.handle_avar (cs : CallStack) (avar : mtrace_avar_entry) : CallStack :=
  match cs.stack_.getLast? with
  | none => cs
  | some cur => { stack_ := cs.stack_.dropLast ++ [avar_scope avar cur] }

/-- The constant `~3` converted to `uint64_t`. -/
def addr_mask : Nat := 0xFFFFFFFFFFFFFFFC

/-- The record `pa` that `handle(const mtrace_access_entry *)` builds before its loop. -/
def make_pa (sv : Services) (access : mtrace_access_entry) : PhysicalAccess :=
  let addr := access.guest_addr &&& addr_mask
  match sv.object addr with
  | some (name_, guest_addr_) =>
    { type := name_, base := guest_addr_, access := access.guest_addr, pc := access.pc }
  | none =>
    { type := "", base := 0, access := access.guest_addr, pc := access.pc }

/-- The body of the loop of `handle(const mtrace_access_entry *)` on one scope. -/
def access_scope (access_type : mtrace_access_t) (addr : Nat) (pa : PhysicalAccess)
    (scope : Ascope) : Except Err Ascope :=
  match access_type with
  | .mtrace_access_st | .mtrace_access_iw =>
    let write := if !map_count addr scope.write_ then map_assign addr pa scope.write_
                 else scope.write_
    .ok { scope with write_ := write, read_ := map_erase addr scope.read_ }
  | .mtrace_access_ld =>
    if !map_count addr scope.write_ then
      .ok { scope with read_ := map_assign addr pa scope.read_ }
    else .ok scope
  | .other _ => .error (Err.die "AbstractSharing::CallStack::handle: unknown access type")

/-- The loop `for (auto &scope : stack_)`, from the bottom of the stack upwards, stopping
at the first failure. -/
def for_each_scope (body : Ascope → Except Err Ascope) :
    List Ascope → Except Err (List Ascope)
  | [] => .ok []
  | scope :: rest =>
    match body scope with
    | .error e => .error e
    | .ok scope' =>
      match for_each_scope body rest with
      | .error e => .error e
      | .ok rest' => .ok (scope' :: rest')

/-- The method `CallStack::handle(const mtrace_access_entry *)`. -/
def CallStack.handle_access (sv : Services) (cs : CallStack)
    (access : mtrace_access_entry) : Except Err CallStack :=
  if cs.stack_.isEmpty then .ok cs
  else
    let addr := access.guest_addr &&& addr_mask
    let pa := make_pa sv access
    match for_each_scope (access_scope access.access_type addr pa) cs.stack_ with
    | .error e => .error e
    | .ok stack => .ok { stack_ := stack }

/-! ## The sharing detector -/

/-- The template `intersects`: the merge walk over two ranges, `lt` being the `operator<`
of the value type; the result is the element `*first1` of the first match. -/
def intersects {α : Type} (lt : α → α → Bool) : List α → List α → Option α
  | [], _ => none
  | _ :: _, [] => none
  | a :: as, b :: bs =>
    if lt a b then intersects lt as (b :: bs)
    else if lt b a then intersects lt (a :: as) bs
    else some a
termination_by l1 l2 => l1.length + l2.length

/-- The template `shares`: three merge walks chained by `?:`. -/
def shares {α : Type} (lt : α → α → Bool) (r1 w1 r2 w2 : List α) : Option α :=
  match intersects lt r1 w2 with
  | some x => some x
  | none =>
    match intersects lt w1 r2 with
    | some x => some x
    | none => intersects lt w1 w2

/-- The rendering of one access record, the dictionary `to_json` fills. -/
structure AccessJson where
  addr : String
  pc : Option String
  pc1 : Option String
  pc2 : Option String
deriving DecidableEq, Repr

/-- The method `PhysicalAccess::to_json`; `sprintf("0x%" PRIx64)` is the hexadecimal
numeral of `access`. -/
def PhysicalAccess.to_json (sv : Services) (self : PhysicalAccess)
    (other : Option PhysicalAccess) : AccessJson :=
  let addr :=
    if self.type.length ≠ 0 then
      sv.resolve_type_offset self.type self.base
        ((self.access + (2 ^ 64 - self.base % 2 ^ 64)) % 2 ^ 64) self.pc
    else "0x" ++ String.mk (Nat.toDigits 16 self.access)
  match other with
  | some o =>
    if self.pc ≠ o.pc then
      { addr := addr, pc := none,
        pc1 := some (sv.function_description self.pc),
        pc2 := some (sv.function_description o.pc) }
    else
      { addr := addr, pc := some (sv.function_description self.pc), pc1 := none, pc2 := none }
  | none =>
    { addr := addr, pc := some (sv.function_description self.pc), pc1 := none, pc2 := none }

/-- The template `shared_to_json` on two concrete maps: the merge walk that appends to
`shared` one rendered entry per match and goes on after it. -/
def shared_to_json (sv : Services) (shared : List AccessJson) :
    List (Nat × PhysicalAccess) → List (Nat × PhysicalAccess) → List AccessJson
  | [], _ => shared
  | _ :: _, [] => shared
  | a :: as, b :: bs =>
    if pair_lt a b then shared_to_json sv shared as (b :: bs)
    else if pair_lt b a then shared_to_json sv shared (a :: as) bs
    else shared_to_json sv (shared ++ [a.2.to_json sv (some b.2)]) as bs
termination_by l1 l2 => l1.length + l2.length

/-- One entry of the list `unexpected-sharing`. -/
structure Incident where
  s1 : String
  s2 : String
  shared : List AccessJson
deriving DecidableEq, Repr

/-- The array `shared_scopes[2][2]`. -/
structure SharedScopes where
  c00 : Nat
  c01 : Nat
  c10 : Nat
  c11 : Nat
deriving DecidableEq, Repr

/-- The cell `shared_scopes[a][c]`. -/
def SharedScopes.get (h : SharedScopes) (a c : Bool) : Nat :=
  match a, c with
  | false, false => h.c00
  | false, true => h.c01
  | true, false => h.c10
  | true, true => h.c11

/-- The statement `shared_scopes[a][c]++`. -/
def SharedScopes.incr (h : SharedScopes) (a c : Bool) : SharedScopes :=
  match a, c with
  | false, false => { h with c00 := h.c00 + 1 }
  | false, true => { h with c01 := h.c01 + 1 }
  | true, false => { h with c10 := h.c10 + 1 }
  | true, true => { h with c11 := h.c11 + 1 }

/-- What the pairwise loop of `exit` updates: its two counters, the incident list `lst`,
and the warnings written to `stderr` (the two scope names and the shared name). -/
structure Detection where
  compared_scopes : Nat
  shared_scopes : SharedScopes
  lst : List Incident
  warnings : List (String × String × String)
deriving DecidableEq, Repr

/-- The counters and lists before the loop. -/
def Detection.init : Detection :=
  { compared_scopes := 0, shared_scopes := ⟨0, 0, 0, 0⟩, lst := [], warnings := [] }

/-- The body of the inner loop of `exit` for one pair `(s1, s2)`. -/
def compare_pair (sv : Services) (s1 s2 : Ascope) (d : Detection) : Detection :=
  if s1.cpu_ = s2.cpu_ then d
  else
    let compared := d.compared_scopes + 1
    let abstract_sharing := shares string_lt s1.aread_ s1.awrite_ s2.aread_ s2.awrite_
    let concrete_sharing := shares pair_lt s1.read_ s1.write_ s2.read_ s2.write_
    let hist := d.shared_scopes.incr abstract_sharing.isSome concrete_sharing.isSome
    if concrete_sharing.isSome && !abstract_sharing.isSome then
      let shared := shared_to_json sv [] s1.read_ s2.write_
      let shared := shared_to_json sv shared s1.write_ s2.read_
      let shared := shared_to_json sv shared s1.write_ s2.write_
      { d with compared_scopes := compared, shared_scopes := hist,
               lst := d.lst ++ [{ s1 := s1.name_, s2 := s2.name_, shared := shared }] }
    else
      match abstract_sharing with
      | some v =>
        if !concrete_sharing.isSome then
          { d with compared_scopes := compared, shared_scopes := hist,
                   warnings := d.warnings ++ [(s1.name_, s2.name_, v)] }
        else { d with compared_scopes := compared, shared_scopes := hist }
      | none => { d with compared_scopes := compared, shared_scopes := hist }

/-- The inner loop of `exit`: `it2` from `it1 + 1` to the end. -/
def inner_loop (sv : Services) (s1 : Ascope) : List Ascope → Detection → Detection
  | [], d => d
  | s2 :: rest, d => inner_loop sv s1 rest (compare_pair sv s1 s2 d)

/-- The outer loop of `exit`: `it1` over the registry. -/
def outer_loop (sv : Services) : List Ascope → Detection → Detection
  | [], d => d
  | s1 :: rest, d => outer_loop sv rest (inner_loop sv s1 rest d)

/-- One entry of the list `abstract-scopes`. -/
structure ScopeDump where
  name : String
  aread : List String
  awrite : List String
  read : List AccessJson
  write : List AccessJson
deriving DecidableEq, Repr

/-- The dictionary `scope-summary`; a field that is not put is `none`. -/
structure Summary where
  total_scopes : Nat
  compared_scopes : Option Nat
  unshared_unshared : Option Nat
  shared_shared : Option Nat
  unshared_shared : Option Nat
  shared_unshared : Option Nat
deriving DecidableEq, Repr

/-- What `exit` puts into `json_file`, and what it wrote to `stderr`. -/
structure Report where
  scope_summary : Summary
  abstract_scopes : Option (List ScopeDump)
  unexpected_sharing : Option (List Incident)
  warnings : List (String × String × String)
deriving DecidableEq, Repr

/-- The body of `exit` after `callstacks_.flush()`, on the flags `ascopes_` and
`unexpected_` and the registry `scopes_`. -/
def exit_report (sv : Services) (ascopes_ unexpected_ : Bool) (scopes_ : List Ascope) :
    Report :=
  let ascopes : Option (List ScopeDump) :=
    if ascopes_ then
      some (scopes_.map fun ascope =>
        { name := ascope.name_, aread := ascope.aread_, awrite := ascope.awrite_,
          read := ascope.read_.map fun it => it.2.to_json sv none,
          write := ascope.write_.map fun it => it.2.to_json sv none })
    else none
  let d := if unexpected_ then outer_loop sv scopes_ Detection.init else Detection.init
  let summary : Summary :=
    if unexpected_ then
      { total_scopes := scopes_.length,
        compared_scopes := some d.compared_scopes,
        unshared_unshared := some (d.shared_scopes.get false false),
        shared_shared := some (d.shared_scopes.get true true),
        unshared_shared := some (d.shared_scopes.get false true),
        shared_unshared :=
          if d.shared_scopes.get true false ≠ 0 then some (d.shared_scopes.get true false)
          else none }
    else
      { total_scopes := scopes_.length, compared_scopes := none, unshared_unshared := none,
        shared_shared := none, unshared_shared := none, shared_unshared := none }
  { scope_summary := summary,
    abstract_scopes := ascopes,
    unexpected_sharing := if unexpected_ then some d.lst else none,
    warnings := d.warnings }

/-! ## The per-context call stacks and the whole analysis -/

/-- The destructor `CallStack::~CallStack`: `pop()` until the stack is empty; the result
is the registry. -/
def CallStack.destroy (cs : CallStack) (scopes_ : List Ascope) : List Ascope :=
  if h : cs.stack_ = [] then scopes_
  else
    let cur := cs.stack_.getLast h
    CallStack.destroy { stack_ := cs.stack_.dropLast }
      (if !cur.aread_.isEmpty || !cur.awrite_.isEmpty then scopes_ ++ [cur] else scopes_)
termination_by cs.stack_.length
decreasing_by
  simp only [List.length_dropLast]
  have : 0 < cs.stack_.length := List.length_pos.2 h
  omega

/-- A trace entry the analysis dispatches to a call stack, with the `h.cpu` it is
dispatched on. -/
inductive mtrace_entry where
  | ascope (e : mtrace_ascope_entry)
  | avar (cpu : Int) (e : mtrace_avar_entry)
  | access (cpu : Int) (e : mtrace_access_entry)
deriving DecidableEq, Repr

/-- The state of the analysis: the call stacks of the contexts, and the registry
`scopes_` of completed scopes. -/
structure Tracker where
  callstacks_ : List (Int × CallStack)
  scopes_ : List Ascope
deriving DecidableEq, Repr

/-- Modelled from the spec: `PerCallStack<CallStack>::current` (`percallstack.hh` is not
among the sources). Each context has its own stack, created empty on the first event
of that context. -/
def current (callstacks_ : List (Int × CallStack)) (cpu : Int) : CallStack :=
  match callstacks_ with
  | [] => { stack_ := [] }
  | e :: es => if e.1 = cpu then e.2 else current es cpu

/-- Modelled from the spec: the stack of a context after an event replaces the one the
context had before; the stacks of the other contexts are untouched. -/
def set_current (cpu : Int) (cs : CallStack) :
    List (Int × CallStack) → List (Int × CallStack)
  | [] => [(cpu, cs)]
  | e :: es => if e.1 = cpu then (cpu, cs) :: es else e :: set_current cpu cs es

/-- The dispatch of `AbstractSharing::handle` for the three entry types of the tracker,
with tracing enabled in `mtrace_record_ascope` mode. -/
def handle (sv : Services) (t : Tracker) : mtrace_entry → Except Err Tracker
  | .ascope e =>
    match (current t.callstacks_ e.cpu).handle_ascope t.scopes_ e with
    | .error err => .error err
    | .ok (cs, scopes) =>
      .ok { callstacks_ := set_current e.cpu cs t.callstacks_, scopes_ := scopes }
  | .avar cpu e =>
    .ok { t with callstacks_ :=
            set_current cpu ((current t.callstacks_ cpu).handle_avar e) t.callstacks_ }
  | .access cpu e =>
    match (current t.callstacks_ cpu).handle_access sv e with
    | .error err => .error err
    | .ok cs => .ok { t with callstacks_ := set_current cpu cs t.callstacks_ }

/-- The replay of a trace, entry by entry, stopping at the first failure. -/
def replay (sv : Services) (t : Tracker) : List mtrace_entry → Except Err Tracker
  | [] => .ok t
  | entry :: rest =>
    match handle sv t entry with
    | .error err => .error err
    | .ok t' => replay sv t' rest

/-- Modelled from the spec: `PerCallStack<CallStack>::flush`, which destroys the call
stack of every context; the result is the registry. -/
def flush (t : Tracker) : List Ascope :=
  t.callstacks_.foldl (fun scopes e => e.2.destroy scopes) t.scopes_

/-- The analysis before its first entry. -/
def Tracker.init : Tracker :=
  { callstacks_ := [], scopes_ := [] }

/-- The whole analysis: replay of the trace, then `exit`. -/
def analyse (sv : Services) (ascopes_ unexpected_ : Bool) (trace : List mtrace_entry) :
    Except Err Report :=
  match replay sv Tracker.init trace with
  | .error err => .error err
  | .ok t => .ok (exit_report sv ascopes_ unexpected_ (flush t))

/-! ## Vocabulary of the statements -/

/-- A strictly ascending sequence of names, the iteration order of a `std::set<string>`. -/
def ascending (s : List String) : Prop :=
  s.Pairwise (fun a b => string_lt a b = true)

/-- A sequence of map entries strictly ascending in its keys, the iteration order of a
`std::map`. -/
def key_ordered (m : List (Nat × PhysicalAccess)) : Prop :=
  m.Pairwise (fun p q => p.1 < q.1)

/-- A scope whose four containers are in iteration order. -/
def Ascope.ordered (s : Ascope) : Prop :=
  ascending s.aread_ ∧ ascending s.awrite_ ∧ key_ordered s.read_ ∧ key_ordered s.write_

/-- The key and the stored address of a map entry, ordered lexicographically: what
`pair_lt` compares. -/
def pair_key (p : Nat × PhysicalAccess) : Lex (Nat × Nat) :=
  toLex (p.1, p.2.access)

/-- Two map entries that neither is below the other under `pair_lt`: same key, same
stored address. -/
def same_entry (a b : Nat × PhysicalAccess) : Bool :=
  decide (a.1 = b.1 ∧ a.2.access = b.2.access)

/-- The entries an enumeration lists: for every entry of the first map, in order, that
has a same entry in the second map, the rendering of the two records. -/
def shared_entries (sv : Services) (l1 l2 : List (Nat × PhysicalAccess)) :
    List AccessJson :=
  l1.filterMap fun a =>
    (l2.find? (same_entry a)).map fun b => a.2.to_json sv (some b.2)

/-- The incident `exit` appends for a pair of scopes. -/
def incident_of (sv : Services) (s1 s2 : Ascope) : Incident :=
  { s1 := s1.name_, s2 := s2.name_,
    shared :=
      shared_to_json sv
        (shared_to_json sv (shared_to_json sv [] s1.read_ s2.write_) s1.write_ s2.read_)
        s1.write_ s2.write_ }

/-- The classification of a pair of scopes: (abstract sharing?, concrete sharing?). -/
def classify (s1 s2 : Ascope) : Bool × Bool :=
  ((shares string_lt s1.aread_ s1.awrite_ s2.aread_ s2.awrite_).isSome,
   (shares pair_lt s1.read_ s1.write_ s2.read_ s2.write_).isSome)

/-- The naive intersection of two name sets: the names of the first that occur in the
second. -/
def name_inter (a b : List String) : List String :=
  a.filter (fun x => decide (x ∈ b))

/-- The first of three lists, in that order, that is not empty (the third if none is). -/
def first_nonempty (i1 i2 i3 : List String) : List String :=
  if i1 ≠ [] then i1 else if i2 ≠ [] then i2 else i3

/-- A property of scopes holds of every active frame of every context and of every
completed scope of the registry. -/
def Tracker.all (P : Ascope → Prop) (t : Tracker) : Prop :=
  (∀ e ∈ t.callstacks_, ∀ s ∈ e.2.stack_, P s) ∧ ∀ s ∈ t.scopes_, P s

/-- The invariant I1 of a scope: no key of `read_` is a key of `write_`. -/
def disjoint_keys (s : Ascope) : Prop :=
  ∀ k, k ∈ keys s.read_ → k ∉ keys s.write_

/-- The loop body of `handle(const mtrace_access_entry *)` for one entry: the masked
address and the record `pa` are computed from the entry as the method does. -/
def frame_access (sv : Services) (access : mtrace_access_entry) (scope : Ascope) :
    Except Err Ascope :=
  access_scope access.access_type (access.guest_addr &&& addr_mask) (make_pa sv access) scope

/-- A sequence of physical accesses applied to one frame, as the loop body does. -/
def frame_accesses (sv : Services) (scope : Ascope) :
    List mtrace_access_entry → Except Err Ascope
  | [] => .ok scope
  | access :: rest =>
    match frame_access sv access scope with
    | .error err => .error err
    | .ok scope' => frame_accesses sv scope' rest

/-- A sequence of variable accesses applied to one frame while it is `back()`. -/
def frame_avars (cur : Ascope) (avars : List mtrace_avar_entry) : Ascope :=
  avars.foldl (fun s avar => avar_scope avar s) cur

/-- The invariant I2 of a scope: no name of `awrite_` is a name of `aread_`. -/
def disjoint_names (s : Ascope) : Prop :=
  ∀ x, x ∈ s.awrite_ → x ∉ s.aread_

/-- The three access kinds the tracker knows. -/
def known_kind (t : mtrace_access_t) : Prop :=
  t = .mtrace_access_ld ∨ t = .mtrace_access_st ∨ t = .mtrace_access_iw

/-- The two write-like access kinds. -/
def write_like (t : mtrace_access_t) : Prop :=
  t = .mtrace_access_st ∨ t = .mtrace_access_iw

/-- The stack of a context. -/
def stack_of (t : Tracker) (cpu : Int) : List Ascope :=
  (current t.callstacks_ cpu).stack_

/-- What one entry of the trace does to the stack of one context: nothing, a push, a
pop, a variable access on `back()`, or a physical access on every frame. -/
inductive stack_step (sv : Services) : List Ascope → List Ascope → Prop where
  | same (st : List Ascope) : stack_step sv st st
  | push (st : List Ascope) (name : String) (cpu : Int) :
      stack_step sv st (st ++ [Ascope.new name cpu])
  | pop (st : List Ascope) (cur : Ascope) :
      st.getLast? = some cur → stack_step sv st st.dropLast
  | avar (st : List Ascope) (e : mtrace_avar_entry) (cur : Ascope) :
      st.getLast? = some cur → stack_step sv st (st.dropLast ++ [avar_scope e cur])
  | access (st st' : List Ascope) (e : mtrace_access_entry) :
      for_each_scope (frame_access sv e) st = .ok st' → stack_step sv st st'

/-- What one entry of the trace does to one frame that stays on its stack: nothing, a
variable access, or a physical access. -/
def frame_step (sv : Services) (s s' : Ascope) : Prop :=
  s' = s ∨ (∃ e, s' = avar_scope e s) ∨ ∃ e, frame_access sv e s = .ok s'

/-- A scope holds the key `k` in `read_` or in `write_`. -/
def has_key (k : Nat) (s : Ascope) : Prop :=
  k ∈ keys s.read_ ∨ k ∈ keys s.write_

/-- Containment of the concrete key sets of an enclosed frame `y` in those of an
enclosing frame `x`. -/
def encloses (x y : Ascope) : Prop :=
  (∀ k, k ∈ keys y.write_ → k ∈ keys x.write_)
    ∧ ∀ k, has_key k y → has_key k x

/-- A scope that declared an abstract access. -/
def declared (s : Ascope) : Prop :=
  s.aread_ ≠ [] ∨ s.awrite_ ≠ []

/-- The pairs of entries an enumeration matches: every entry of the first map, in
order, with its same entry of the second map. -/
def matched (l1 l2 : List (Nat × PhysicalAccess)) :
    List ((Nat × PhysicalAccess) × (Nat × PhysicalAccess)) :=
  l1.filterMap fun a => (l2.find? (same_entry a)).map fun b => (a, b)

/-- The rendering of a matched pair of entries. -/
def render (sv : Services) (p : (Nat × PhysicalAccess) × (Nat × PhysicalAccess)) :
    AccessJson :=
  p.1.2.to_json sv (some p.2.2)

/-- The stored address of every record of a scope masks to the key it is stored under. -/
def records_mask_to_keys (s : Ascope) : Prop :=
  (∀ e ∈ s.read_, e.2.access &&& addr_mask = e.1)
    ∧ ∀ e ∈ s.write_, e.2.access &&& addr_mask = e.1

/-- The address keys an enumeration lists, in order. -/
def matched_keys (l1 l2 : List (Nat × PhysicalAccess)) : List Nat :=
  (matched l1 l2).map fun p => p.1.1

/-! ## Concrete traces -/

/-- Services that label no object and describe a program counter by its decimal
numeral. -/
def bare_services : Services :=
  { object := fun _ => none,
    resolve_type_offset := fun _ _ _ _ => "",
    function_description := fun pc => String.mk (Nat.toDigits 10 pc) }

/-- Two scopes on two contexts store to two bytes of the word at `0x1000`. -/
def word_trace : List mtrace_entry :=
  [ .ascope ⟨false, "foo", 0⟩, .avar 0 ⟨"x", true⟩,
    .access 0 ⟨.mtrace_access_st, 0x1000, 7⟩,
    .ascope ⟨false, "bar", 1⟩, .avar 1 ⟨"y", true⟩,
    .access 1 ⟨.mtrace_access_st, 0x1003, 9⟩ ]

/-- The scope `foo` of `word_trace` when the trace ends. -/
def word_foo : Ascope :=
  { name_ := "foo", cpu_ := 0, aread_ := [], awrite_ := ["x"], read_ := [],
    write_ := [(0x1000, { type := "", base := 0, access := 0x1000, pc := 7 })] }

/-- The scope `bar` of `word_trace` when the trace ends. -/
def word_bar : Ascope :=
  { name_ := "bar", cpu_ := 1, aread_ := [], awrite_ := ["y"], read_ := [],
    write_ := [(0x1000, { type := "", base := 0, access := 0x1003, pc := 9 })] }

/-- A frame loads the word at `0x1000`, stores to a byte of it, loads the word at
`0x2000`, declares a write of `x`, and exits. -/
def shadow_trace : List mtrace_entry :=
  [ .ascope ⟨false, "foo", 0⟩,
    .access 0 ⟨.mtrace_access_ld, 0x1000, 7⟩,
    .access 0 ⟨.mtrace_access_st, 0x1002, 8⟩,
    .access 0 ⟨.mtrace_access_ld, 0x2000, 9⟩,
    .avar 0 ⟨"x", true⟩,
    .ascope ⟨true, "foo", 0⟩ ]

/-- The scope `foo` of `shadow_trace` when it exits. -/
def shadow_foo : Ascope :=
  { name_ := "foo", cpu_ := 0, aread_ := [], awrite_ := ["x"],
    read_ := [(0x2000, { type := "", base := 0, access := 0x2000, pc := 9 })],
    write_ := [(0x1000, { type := "", base := 0, access := 0x1002, pc := 8 })] }

/-- Two loads of the word at `0x1000`, from program counters 7 and 8. -/
def two_loads : List mtrace_access_entry :=
  [ ⟨.mtrace_access_ld, 0x1000, 7⟩, ⟨.mtrace_access_ld, 0x1000, 8⟩ ]

/-- A store to the word at `0x1000`, then a load of a byte of it, an interrupt write to
another byte of it, and a load elsewhere. -/
def store_then_others : List mtrace_access_entry :=
  [ ⟨.mtrace_access_st, 0x1001, 7⟩, ⟨.mtrace_access_ld, 0x1000, 8⟩,
    ⟨.mtrace_access_iw, 0x1003, 9⟩, ⟨.mtrace_access_ld, 0x2000, 10⟩ ]

/-- Two scopes on two contexts store to the words at `0x1000` and `0x2000`; the stores
to the second word hit different bytes of it. -/
def two_words_trace : List mtrace_entry :=
  [ .ascope ⟨false, "foo", 0⟩, .avar 0 ⟨"x", true⟩,
    .access 0 ⟨.mtrace_access_st, 0x1000, 7⟩,
    .access 0 ⟨.mtrace_access_st, 0x2000, 8⟩,
    .ascope ⟨false, "bar", 1⟩, .avar 1 ⟨"y", true⟩,
    .access 1 ⟨.mtrace_access_st, 0x1000, 9⟩,
    .access 1 ⟨.mtrace_access_st, 0x2001, 10⟩ ]

/-- The scope `foo` of `two_words_trace` when the trace ends. -/
def two_words_foo : Ascope :=
  { name_ := "foo", cpu_ := 0, aread_ := [], awrite_ := ["x"], read_ := [],
    write_ := [(0x1000, { type := "", base := 0, access := 0x1000, pc := 7 }),
               (0x2000, { type := "", base := 0, access := 0x2000, pc := 8 })] }

/-- The scope `bar` of `two_words_trace` when the trace ends. -/
def two_words_bar : Ascope :=
  { name_ := "bar", cpu_ := 1, aread_ := [], awrite_ := ["y"], read_ := [],
    write_ := [(0x1000, { type := "", base := 0, access := 0x1000, pc := 9 }),
               (0x2000, { type := "", base := 0, access := 0x2001, pc := 10 })] }

/-- A scope that reads `b`, writes `a`, loads the word at `0x1000` and stores to the
word at `0x2000`. -/
def swap_left : Ascope :=
  { name_ := "left", cpu_ := 0, aread_ := ["b"], awrite_ := ["a"],
    read_ := [(0x1000, { type := "", base := 0, access := 0x1000, pc := 1 })],
    write_ := [(0x2000, { type := "", base := 0, access := 0x2000, pc := 2 })] }

/-- A scope that reads `a`, writes `b`, loads the word at `0x2000` and stores to the
word at `0x3000`. -/
def swap_right : Ascope :=
  { name_ := "right", cpu_ := 1, aread_ := ["a"], awrite_ := ["b"],
    read_ := [(0x2000, { type := "", base := 0, access := 0x2000, pc := 3 })],
    write_ := [(0x3000, { type := "", base := 0, access := 0x3000, pc := 4 })] }

/-- Scenario A: `foo` on context 0 writes `x` and stores to `0x1000`; `bar` on context 1
writes `y` and stores to `0x1000`. -/
def scenario_a : List mtrace_entry :=
  [ .ascope ⟨false, "foo", 0⟩, .avar 0 ⟨"x", true⟩,
    .access 0 ⟨.mtrace_access_st, 0x1000, 7⟩, .ascope ⟨true, "foo", 0⟩,
    .ascope ⟨false, "bar", 1⟩, .avar 1 ⟨"y", true⟩,
    .access 1 ⟨.mtrace_access_st, 0x1000, 9⟩, .ascope ⟨true, "bar", 1⟩ ]

/-- The completed scope `foo` of scenario A. -/
def scenario_a_foo : Ascope :=
  { name_ := "foo", cpu_ := 0, aread_ := [], awrite_ := ["x"], read_ := [],
    write_ := [(0x1000, { type := "", base := 0, access := 0x1000, pc := 7 })] }

/-- The completed scope `bar` of scenario A. -/
def scenario_a_bar : Ascope :=
  { name_ := "bar", cpu_ := 1, aread_ := [], awrite_ := ["y"], read_ := [],
    write_ := [(0x1000, { type := "", base := 0, access := 0x1000, pc := 9 })] }

/-- The state of the analysis after scenario A. -/
def scenario_a_tracker : Tracker :=
  { callstacks_ := [(0, { stack_ := [] }), (1, { stack_ := [] })],
    scopes_ := [scenario_a_foo, scenario_a_bar] }

/-- The report of scenario A with the unexpected-sharing section enabled. -/
def scenario_a_report : Report :=
  { scope_summary :=
      { total_scopes := 2, compared_scopes := some 1, unshared_unshared := some 0,
        shared_shared := some 0, unshared_shared := some 1, shared_unshared := none },
    abstract_scopes := none,
    unexpected_sharing :=
      some [{ s1 := "foo", s2 := "bar",
              shared := [{ addr := "0x1000", pc := none,
                           pc1 := some "7", pc2 := some "9" }] }],
    warnings := [] }

/-- As scenario A, but `foo` declares no variable access. -/
def silent_trace : List mtrace_entry :=
  [ .ascope ⟨false, "foo", 0⟩,
    .access 0 ⟨.mtrace_access_st, 0x1000, 7⟩, .ascope ⟨true, "foo", 0⟩,
    .ascope ⟨false, "bar", 1⟩, .avar 1 ⟨"y", true⟩,
    .access 1 ⟨.mtrace_access_st, 0x1000, 9⟩, .ascope ⟨true, "bar", 1⟩ ]

/-- The report of `silent_trace` with the unexpected-sharing section enabled. -/
def silent_report : Report :=
  { scope_summary :=
      { total_scopes := 1, compared_scopes := some 0, unshared_unshared := some 0,
        shared_shared := some 0, unshared_shared := some 0, shared_unshared := none },
    abstract_scopes := none,
    unexpected_sharing := some [],
    warnings := [] }

/-- Scenario C up to the load: outer scope `A` and inner scope `B` are entered on
context 0. -/
def scenario_c_enter : List mtrace_entry :=
  [ .ascope ⟨false, "A", 0⟩, .avar 0 ⟨"x", false⟩, .ascope ⟨false, "B", 0⟩ ]

/-- Scenario C after the load: `B` declares a read of `y`, then `B` and `A` exit. -/
def scenario_c_rest : List mtrace_entry :=
  [ .avar 0 ⟨"y", false⟩, .ascope ⟨true, "B", 0⟩, .ascope ⟨true, "A", 0⟩ ]

/-- The load of scenario C. -/
def scenario_c_load : mtrace_access_entry :=
  ⟨.mtrace_access_ld, 0x2000, 5⟩

/-- The state of the analysis after `scenario_c_enter`. -/
def scenario_c_tracker : Tracker :=
  { callstacks_ :=
      [(0, { stack_ :=
        [ { name_ := "A", cpu_ := 0, aread_ := ["x"], awrite_ := [], read_ := [],
            write_ := [] },
          Ascope.new "B" 0 ] })],
    scopes_ := [] }

/-- The record the load of scenario C stores. -/
def scenario_c_record : PhysicalAccess :=
  { type := "", base := 0, access := 0x2000, pc := 5 }

/-- The registry after scenario C: `B`, then `A`. -/
def scenario_c_registry : List Ascope :=
  [ { name_ := "B", cpu_ := 0, aread_ := ["y"], awrite_ := [],
      read_ := [(0x2000, scenario_c_record)], write_ := [] },
    { name_ := "A", cpu_ := 0, aread_ := ["x"], awrite_ := [],
      read_ := [(0x2000, scenario_c_record)], write_ := [] } ]

/-- A frame that declared nothing and stored to the word at `0x1000`. -/
def silent_frame : Ascope :=
  { name_ := "foo", cpu_ := 0, aread_ := [], awrite_ := [], read_ := [],
    write_ := [(0x1000, { type := "", base := 0, access := 0x1000, pc := 7 })] }

/-- A load of `0x1000` and a store to `0x1003`, two bytes of one word. -/
def one_word_accesses : List mtrace_access_entry :=
  [ ⟨.mtrace_access_ld, 0x1000, 7⟩, ⟨.mtrace_access_st, 0x1003, 8⟩ ]

/-- A context enters `foo`, declares a write of `x`, and exits twice. -/
def double_exit_trace : List mtrace_entry :=
  [ .ascope ⟨false, "foo", 0⟩, .avar 0 ⟨"x", true⟩,
    .ascope ⟨true, "foo", 0⟩, .ascope ⟨true, "foo", 0⟩ ]

/-- A stack of two frames: `A`, which read `x`, below `B`, which wrote `y` and loaded
the word at `0x2000`. -/
def two_frames : CallStack :=
  { stack_ :=
      [ { name_ := "A", cpu_ := 0, aread_ := ["x"], awrite_ := [],
          read_ := [(0x2000, { type := "", base := 0, access := 0x2000, pc := 5 })],
          write_ := [] },
        { name_ := "B", cpu_ := 0, aread_ := [], awrite_ := ["y"],
          read_ := [(0x2000, { type := "", base := 0, access := 0x2000, pc := 5 })],
          write_ := [] } ] }

/-- Outer `A` stores to the word at `0x1000`; inner `B` is entered, then the word at
`0x2000` is loaded and the word at `0x3000` is stored to. -/
def nested_trace : List mtrace_entry :=
  [ .ascope ⟨false, "A", 0⟩, .access 0 ⟨.mtrace_access_st, 0x1000, 1⟩,
    .ascope ⟨false, "B", 0⟩, .access 0 ⟨.mtrace_access_ld, 0x2000, 2⟩,
    .access 0 ⟨.mtrace_access_st, 0x3000, 3⟩ ]

/-- The frame `A` after `nested_trace`. -/
def nested_outer : Ascope :=
  { name_ := "A", cpu_ := 0, aread_ := [], awrite_ := [],
    read_ := [(0x2000, { type := "", base := 0, access := 0x2000, pc := 2 })],
    write_ := [(0x1000, { type := "", base := 0, access := 0x1000, pc := 1 }),
               (0x3000, { type := "", base := 0, access := 0x3000, pc := 3 })] }

/-- The frame `B` after `nested_trace`. -/
def nested_inner : Ascope :=
  { name_ := "B", cpu_ := 0, aread_ := [], awrite_ := [],
    read_ := [(0x2000, { type := "", base := 0, access := 0x2000, pc := 2 })],
    write_ := [(0x3000, { type := "", base := 0, access := 0x3000, pc := 3 })] }

/-- The state of the analysis after `word_trace`. -/
def word_tracker : Tracker :=
  { callstacks_ := [(0, { stack_ := [word_foo] }), (1, { stack_ := [word_bar] })],
    scopes_ := [] }

/-! ## Container lemmas -/

theorem string_lt_iff (a b : String) : string_lt a b = true ↔ a < b := by
  simp [string_lt, String.lt_iff_toList_lt]

theorem mem_set_insert (x y : String) (s : List String) :
    y ∈ set_insert x s ↔ y = x ∨ y ∈ s := by
  induction s with
  | nil => simp [set_insert]
  | cons z zs ih =>
    unfold set_insert
    by_cases h1 : string_lt x z = true
    · rw [if_pos h1]
      simp
    · rw [if_neg h1]
      by_cases h2 : string_lt z x = true
      · rw [if_pos h2, List.mem_cons, List.mem_cons, ih]
        tauto
      · have hxz : x = z := by
          have h1' : ¬ x < z := fun h => h1 ((string_lt_iff x z).2 h)
          have h2' : ¬ z < x := fun h => h2 ((string_lt_iff z x).2 h)
          exact le_antisymm (not_lt.1 h2') (not_lt.1 h1')
        rw [if_neg h2, List.mem_cons, hxz]
        constructor
        · intro h
          exact Or.inr h
        · rintro (h | h)
          · exact Or.inl h
          · exact h

theorem mem_set_erase (x y : String) (s : List String) :
    y ∈ set_erase x s ↔ y ≠ x ∧ y ∈ s := by
  simp [set_erase, and_comm]

theorem set_count_iff (x : String) (s : List String) : set_count x s = true ↔ x ∈ s := by
  simp [set_count]

theorem map_count_iff {β : Type} (k : Nat) (m : List (Nat × β)) :
    map_count k m = true ↔ k ∈ keys m := by
  simp only [map_count, keys, List.any_eq_true, decide_eq_true_eq, List.mem_map]

theorem mem_keys_map_assign {β : Type} (k k' : Nat) (v : β) (m : List (Nat × β)) :
    k' ∈ keys (map_assign k v m) ↔ k' = k ∨ k' ∈ keys m := by
  induction m with
  | nil => simp [map_assign, keys]
  | cons e es ih =>
    unfold map_assign
    by_cases h1 : k < e.1
    · rw [if_pos h1]
      simp [keys]
    · rw [if_neg h1]
      by_cases h2 : e.1 < k
      · rw [if_pos h2]
        simp only [keys, List.map_cons, List.mem_cons] at ih ⊢
        rw [ih]
        tauto
      · have hk : e.1 = k := by omega
        rw [if_neg h2]
        simp only [keys, List.map_cons, List.mem_cons, hk]
        tauto

theorem mem_keys_map_erase {β : Type} (k k' : Nat) (m : List (Nat × β)) :
    k' ∈ keys (map_erase k m) ↔ k' ≠ k ∧ k' ∈ keys m := by
  simp only [keys, map_erase, List.mem_map, List.mem_filter, decide_eq_true_eq]
  constructor
  · rintro ⟨e, ⟨he, hne⟩, rfl⟩
    exact ⟨hne, e, he, rfl⟩
  · rintro ⟨hne, e, he, rfl⟩
    exact ⟨e, ⟨he, hne⟩, rfl⟩

theorem map_find_map_assign_self {β : Type} (k : Nat) (v : β) (m : List (Nat × β)) :
    map_find k (map_assign k v m) = some v := by
  induction m with
  | nil => simp [map_assign, map_find]
  | cons e es ih =>
    unfold map_assign
    by_cases h1 : k < e.1
    · simp [h1, map_find]
    · by_cases h2 : e.1 < k
      · have hne : e.1 ≠ k := by omega
        simp [h1, h2, map_find, hne, ih]
      · simp [h1, h2, map_find]

theorem map_find_map_assign_of_ne {β : Type} (k k' : Nat) (v : β) (m : List (Nat × β))
    (hne : k ≠ k') : map_find k (map_assign k' v m) = map_find k m := by
  induction m with
  | nil => simp [map_assign, map_find, hne.symm]
  | cons e es ih =>
    unfold map_assign
    by_cases h1 : k' < e.1
    · simp [h1, map_find, hne.symm]
    · by_cases h2 : e.1 < k'
      · simp [h1, h2, map_find, ih]
      · have hk : e.1 = k' := by omega
        have hek : e.1 ≠ k := fun h => hne (h.symm.trans hk)
        simp [h1, h2, map_find, hne.symm, hek]

theorem map_find_isSome_iff {β : Type} (k : Nat) (m : List (Nat × β)) :
    (map_find k m).isSome = true ↔ k ∈ keys m := by
  induction m with
  | nil => simp [map_find, keys]
  | cons e es ih =>
    simp only [keys] at ih
    by_cases h : e.1 = k
    · simp [map_find, keys, h]
    · have h' : ¬ k = e.1 := fun hk => h hk.symm
      simp [map_find, keys, h, h', ih]

/-! ## The merge walk -/

section MergeWalk

variable {α β : Type} [LinearOrder β]

/-- On two ranges ascending in a key `f` that the comparison `lt` orders by, the merge
walk returns the first element of the first range whose key occurs in the second. -/
theorem intersects_eq_find (lt : α → α → Bool) (f : α → β)
    (hlt : ∀ a b, lt a b = true ↔ f a < f b) (l1 l2 : List α)
    (h1 : l1.Pairwise (fun a b => f a < f b)) (h2 : l2.Pairwise (fun a b => f a < f b)) :
    intersects lt l1 l2 = l1.find? (fun a => l2.any (fun b => decide (f a = f b))) := by
  induction l1, l2 using intersects.induct lt with
  | case1 l2 => simp [intersects]
  | case2 a as =>
    rw [intersects]
    exact (List.find?_eq_none.2 (by simp)).symm
  | case3 a as b bs hab ih =>
    have hfab : f a < f b := (hlt a b).1 hab
    rw [intersects, if_pos hab, ih (List.pairwise_cons.1 h1).2 h2, List.find?_cons]
    have hno : (b :: bs).any (fun y => decide (f a = f y)) = false := by
      rw [Bool.eq_false_iff]
      intro hany
      obtain ⟨y, hy, hey⟩ := List.any_eq_true.1 hany
      have hey : f a = f y := of_decide_eq_true hey
      rcases List.mem_cons.1 hy with rfl | hy
      · exact absurd hey (ne_of_lt hfab)
      · have := (List.pairwise_cons.1 h2).1 y hy
        exact absurd hey (ne_of_lt (lt_trans hfab this))
    rw [hno]
  | case4 a as b bs hab hba ih =>
    have hfba : f b < f a := (hlt b a).1 hba
    rw [intersects, if_neg hab, if_pos hba, ih h1 (List.pairwise_cons.1 h2).2]
    have hb : ∀ x ∈ a :: as, f x ≠ f b := by
      intro x hx
      rcases List.mem_cons.1 hx with rfl | hx
      · exact (ne_of_lt hfba).symm
      · exact (ne_of_lt (lt_trans hfba ((List.pairwise_cons.1 h1).1 x hx))).symm
    have hcongr : ∀ (l : List α), (∀ x ∈ l, f x ≠ f b) →
        l.find? (fun x => bs.any (fun y => decide (f x = f y)))
          = l.find? (fun x => (b :: bs).any (fun y => decide (f x = f y))) := by
      intro l
      induction l with
      | nil => intro _; rfl
      | cons x xs ihx =>
        intro hx
        have hxb : f x ≠ f b := hx x (List.mem_cons_self _ _)
        have hrest := ihx (fun z hz => hx z (List.mem_cons_of_mem _ hz))
        simp only [List.find?_cons, List.any_cons, hxb, decide_False, Bool.false_or, hrest]
    exact hcongr _ hb
  | case5 a as b bs hab hba =>
    have hnab : ¬ f a < f b := fun h => hab ((hlt a b).2 h)
    have hnba : ¬ f b < f a := fun h => hba ((hlt b a).2 h)
    have heq : f a = f b := le_antisymm (not_lt.1 hnba) (not_lt.1 hnab)
    rw [intersects, if_neg hab, if_neg hba, List.find?_cons]
    simp [heq]

/-- The merge walk finds nothing exactly when no key is common to the two ranges. -/
theorem intersects_isSome_iff (lt : α → α → Bool) (f : α → β)
    (hlt : ∀ a b, lt a b = true ↔ f a < f b) (l1 l2 : List α)
    (h1 : l1.Pairwise (fun a b => f a < f b)) (h2 : l2.Pairwise (fun a b => f a < f b)) :
    (intersects lt l1 l2).isSome = true ↔ ∃ a ∈ l1, ∃ b ∈ l2, f a = f b := by
  rw [intersects_eq_find lt f hlt l1 l2 h1 h2, List.find?_isSome]
  constructor
  · rintro ⟨a, ha, hany⟩
    obtain ⟨b, hb, hab⟩ := List.any_eq_true.1 hany
    exact ⟨a, ha, b, hb, of_decide_eq_true hab⟩
  · rintro ⟨a, ha, b, hb, hab⟩
    exact ⟨a, ha, List.any_eq_true.2 ⟨b, hb, decide_eq_true hab⟩⟩

end MergeWalk


/-! ## The abstract sharing test -/

theorem find?_eq_head?_filter {α : Type} (p : α → Bool) (l : List α) :
    l.find? p = (l.filter p).head? := by
  induction l with
  | nil => rfl
  | cons a as ih =>
    by_cases h : p a = true
    · rw [List.find?_cons_of_pos _ h, List.filter_cons_of_pos h]
      rfl
    · rw [List.find?_cons_of_neg _ h, List.filter_cons_of_neg h, ih]

theorem ascending_iff (s : List String) :
    ascending s ↔ s.Pairwise (fun a b => id a < id b) := by
  unfold ascending
  constructor
  · intro h
    exact h.imp (fun hab => (string_lt_iff _ _).1 hab)
  · intro h
    exact h.imp (fun hab => (string_lt_iff _ _).2 hab)

/-- On two name sets the merge walk returns the head of the naive intersection. -/
theorem intersects_names (l1 l2 : List String) (h1 : ascending l1) (h2 : ascending l2) :
    intersects string_lt l1 l2 = (name_inter l1 l2).head? := by
  rw [intersects_eq_find string_lt id (fun a b => string_lt_iff a b) l1 l2
    ((ascending_iff l1).1 h1) ((ascending_iff l2).1 h2), find?_eq_head?_filter]
  unfold name_inter
  congr 1
  apply List.filter_congr
  intro a _
  rw [Bool.eq_iff_iff, List.any_eq_true, decide_eq_true_iff]
  constructor
  · rintro ⟨b, hb, hab⟩
    simp only [decide_eq_true_eq, id] at hab
    rw [hab]
    exact hb
  · intro ha
    exact ⟨a, ha, by simp⟩

/-- The head of the naive intersection with an ascending set is its least name. -/
theorem head_name_inter_least (l1 l2 : List String) (h1 : ascending l1) (x : String)
    (hx : (name_inter l1 l2).head? = some x) :
    x ∈ name_inter l1 l2 ∧ ∀ y ∈ name_inter l1 l2, string_lt y x = false := by
  have hp : (name_inter l1 l2).Pairwise (fun a b => string_lt a b = true) :=
    List.Pairwise.filter _ h1
  cases hl : name_inter l1 l2 with
  | nil => rw [hl] at hx; simp at hx
  | cons z zs =>
    rw [hl] at hx hp
    simp only [List.head?_cons, Option.some.injEq] at hx
    subst hx
    refine ⟨List.mem_cons_self _ _, ?_⟩
    intro y hy
    rw [Bool.eq_false_iff]
    intro hyz
    have hyz' : y < z := (string_lt_iff y z).1 hyz
    rcases List.mem_cons.1 hy with rfl | hy
    · exact lt_irrefl _ hyz'
    · have hzy : z < y := (string_lt_iff z y).1 ((List.pairwise_cons.1 hp).1 y hy)
      exact lt_asymm hzy hyz'

/-- C2. On strictly ascending name sets the abstract sharing test agrees with the naive
set intersection: it answers with the head of the first non-empty one of
`aread1 ∩ awrite2`, `awrite1 ∩ aread2`, `awrite1 ∩ awrite2`; it returns a witness exactly
when one of the three is non-empty; and its witness belongs to that first non-empty
intersection and no name of that intersection is below it. -/
theorem abstract_shares_least_common (r1 w1 r2 w2 : List String)
    (hr1 : ascending r1) (hw1 : ascending w1) (hr2 : ascending r2) (hw2 : ascending w2) :
    shares string_lt r1 w1 r2 w2
        = (first_nonempty (name_inter r1 w2) (name_inter w1 r2) (name_inter w1 w2)).head?
      ∧ ((shares string_lt r1 w1 r2 w2).isSome = true ↔
          (name_inter r1 w2 ≠ [] ∨ name_inter w1 r2 ≠ [] ∨ name_inter w1 w2 ≠ []))
      ∧ ∀ x, shares string_lt r1 w1 r2 w2 = some x →
          x ∈ first_nonempty (name_inter r1 w2) (name_inter w1 r2) (name_inter w1 w2)
          ∧ ∀ y ∈ first_nonempty (name_inter r1 w2) (name_inter w1 r2) (name_inter w1 w2),
              string_lt y x = false := by
  have e1 := intersects_names r1 w2 hr1 hw2
  have e2 := intersects_names w1 r2 hw1 hr2
  have e3 := intersects_names w1 w2 hw1 hw2
  have hmain : shares string_lt r1 w1 r2 w2
      = (first_nonempty (name_inter r1 w2) (name_inter w1 r2) (name_inter w1 w2)).head? := by
    unfold shares first_nonempty
    rw [e1, e2, e3]
    cases h1 : name_inter r1 w2 with
    | cons a as => simp
    | nil =>
      cases h2 : name_inter w1 r2 with
      | cons b bs => simp
      | nil => simp
  refine ⟨hmain, ?_, ?_⟩
  · rw [hmain]
    unfold first_nonempty
    cases h1 : name_inter r1 w2 with
    | cons a as => simp
    | nil =>
      cases h2 : name_inter w1 r2 with
      | cons b bs => simp
      | nil =>
        cases h3 : name_inter w1 w2 with
        | cons c cs => simp
        | nil => simp
  · intro x hx
    rw [hmain] at hx
    unfold first_nonempty at hx ⊢
    by_cases h1 : name_inter r1 w2 ≠ []
    · rw [if_pos h1] at hx ⊢
      exact head_name_inter_least r1 w2 hr1 x hx
    · rw [if_neg h1] at hx ⊢
      by_cases h2 : name_inter w1 r2 ≠ []
      · rw [if_pos h2] at hx ⊢
        exact head_name_inter_least w1 r2 hw1 x hx
      · rw [if_neg h2] at hx ⊢
        exact head_name_inter_least w1 w2 hw1 x hx

/-- C2, at an input: reads `a`, `c` and writes `b`, `d` against reads `b`, `e` and writes
`d`, `f`; the first intersection is empty and the second yields `b`. -/
theorem abstract_shares_least_common_witness :
    shares string_lt ["a", "c"] ["b", "d"] ["b", "e"] ["d", "f"] = some "b"
      ∧ name_inter ["a", "c"] ["d", "f"] = []
      ∧ name_inter ["b", "d"] ["b", "e"] = ["b"] := by
  have h := abstract_shares_least_common ["a", "c"] ["b", "d"] ["b", "e"] ["d", "f"]
    (by unfold ascending; decide) (by unfold ascending; decide)
    (by unfold ascending; decide) (by unfold ascending; decide)
  refine ⟨?_, by decide, by decide⟩
  rw [h.1]
  decide

/-! ## Properties of every frame -/

theorem for_each_scope_ok (body : Ascope → Except Err Ascope) (l l' : List Ascope)
    (h : for_each_scope body l = .ok l') : List.Forall₂ (fun s s' => body s = .ok s') l l' := by
  induction l generalizing l' with
  | nil =>
    simp only [for_each_scope, Except.ok.injEq] at h
    subst h
    exact List.Forall₂.nil
  | cons a as ih =>
    unfold for_each_scope at h
    cases hb : body a with
    | error e => rw [hb] at h; cases h
    | ok a' =>
      rw [hb] at h
      cases hr : for_each_scope body as with
      | error e => rw [hr] at h; cases h
      | ok as' =>
        rw [hr] at h
        simp only [Except.ok.injEq] at h
        subst h
        exact List.Forall₂.cons hb (ih as' hr)

theorem for_each_scope_mem (body : Ascope → Except Err Ascope) (l l' : List Ascope)
    (h : for_each_scope body l = .ok l') (s' : Ascope) (hs : s' ∈ l') :
    ∃ s ∈ l, body s = .ok s' := by
  have hf := for_each_scope_ok body l l' h
  induction hf with
  | nil => cases hs
  | cons hab _ ih =>
    rename_i a b as bs hrest
    have hsplit : for_each_scope body as = .ok bs := by
      unfold for_each_scope at h
      rw [hab] at h
      cases hr : for_each_scope body as with
      | error e => rw [hr] at h; cases h
      | ok as' =>
        rw [hr] at h
        simp only [Except.ok.injEq, List.cons.injEq, true_and] at h
        rw [h]
    rcases List.mem_cons.1 hs with rfl | hs
    · exact ⟨a, List.mem_cons_self _ _, hab⟩
    · obtain ⟨s, hs1, hs2⟩ := ih hsplit hs
      exact ⟨s, List.mem_cons_of_mem _ hs1, hs2⟩

theorem handle_access_eq (sv : Services) (cs : CallStack) (access : mtrace_access_entry) :
    cs.handle_access sv access =
      if cs.stack_.isEmpty then .ok cs
      else match for_each_scope (frame_access sv access) cs.stack_ with
        | .error e => .error e
        | .ok stack => .ok { stack_ := stack } := rfl

theorem mem_current (l : List (Int × CallStack)) (cpu : Int) (s : Ascope)
    (hs : s ∈ (current l cpu).stack_) : ∃ e ∈ l, s ∈ e.2.stack_ := by
  induction l with
  | nil => simp [current] at hs
  | cons e es ih =>
    unfold current at hs
    by_cases h : e.1 = cpu
    · rw [if_pos h] at hs
      exact ⟨e, List.mem_cons_self _ _, hs⟩
    · rw [if_neg h] at hs
      obtain ⟨e', he', hs'⟩ := ih hs
      exact ⟨e', List.mem_cons_of_mem _ he', hs'⟩

theorem mem_set_current (l : List (Int × CallStack)) (cpu : Int) (cs : CallStack)
    (e : Int × CallStack) (he : e ∈ set_current cpu cs l) : e = (cpu, cs) ∨ e ∈ l := by
  induction l with
  | nil =>
    simp only [set_current, List.mem_singleton] at he
    exact Or.inl he
  | cons x xs ih =>
    unfold set_current at he
    by_cases h : x.1 = cpu
    · rw [if_pos h] at he
      rcases List.mem_cons.1 he with rfl | he
      · exact Or.inl rfl
      · exact Or.inr (List.mem_cons_of_mem _ he)
    · rw [if_neg h] at he
      rcases List.mem_cons.1 he with rfl | he
      · exact Or.inr (List.mem_cons_self _ _)
      · rcases ih he with h' | h'
        · exact Or.inl h'
        · exact Or.inr (List.mem_cons_of_mem _ h')

/-- A property of scopes that holds of a fresh scope and is kept by the two per-scope
updates holds after every entry. -/
theorem handle_all (P : Ascope → Prop) (sv : Services)
    (hnew : ∀ name cpu, P (Ascope.new name cpu))
    (havar : ∀ avar s, P s → P (avar_scope avar s))
    (hacc : ∀ access s s', frame_access sv access s = .ok s' → P s → P s')
    (t t' : Tracker) (entry : mtrace_entry) (ht : Tracker.all P t)
    (h : handle sv t entry = .ok t') : Tracker.all P t' := by
  have hcur : ∀ cpu, ∀ s ∈ (current t.callstacks_ cpu).stack_, P s := by
    intro cpu s hs
    obtain ⟨e, he, hse⟩ := mem_current _ _ _ hs
    exact ht.1 e he s hse
  have hset : ∀ cpu cs, (∀ s ∈ cs.stack_, P s) →
      ∀ e ∈ set_current cpu cs t.callstacks_, ∀ s ∈ e.2.stack_, P s := by
    intro cpu cs hcs e he s hs
    rcases mem_set_current _ _ _ _ he with rfl | he
    · exact hcs s hs
    · exact ht.1 e he s hs
  cases entry with
  | ascope a =>
    simp only [handle, CallStack.handle_ascope, CallStack.pop] at h
    by_cases hexit : a.exit = true
    · rw [if_pos hexit] at h
      cases hl : (current t.callstacks_ a.cpu).stack_.getLast? with
      | none => rw [hl] at h; cases h
      | some cur =>
        rw [hl] at h
        simp only [Except.ok.injEq] at h
        subst h
        have hcurP : P cur := hcur a.cpu cur (List.mem_of_getLast?_eq_some hl)
        refine ⟨hset a.cpu _ ?_, ?_⟩
        · intro s hs
          exact hcur a.cpu s (List.mem_of_mem_dropLast hs)
        · intro s hs
          dsimp only at hs
          split at hs
          · rcases List.mem_append.1 hs with hs | hs
            · exact ht.2 s hs
            · rw [List.mem_singleton] at hs
              rw [hs]
              exact hcurP
          · exact ht.2 s hs
    · rw [if_neg hexit] at h
      simp only [Except.ok.injEq] at h
      subst h
      refine ⟨hset a.cpu _ ?_, ht.2⟩
      intro s hs
      rcases List.mem_append.1 hs with hs | hs
      · exact hcur a.cpu s hs
      · rw [List.mem_singleton] at hs
        rw [hs]
        exact hnew _ _
  | avar cpu a =>
    simp only [handle, Except.ok.injEq] at h
    subst h
    refine ⟨hset cpu _ ?_, ht.2⟩
    intro s hs
    unfold CallStack.handle_avar at hs
    cases hl : (current t.callstacks_ cpu).stack_.getLast? with
    | none =>
      rw [hl] at hs
      exact hcur cpu s hs
    | some cur =>
      rw [hl] at hs
      rcases List.mem_append.1 hs with hs | hs
      · exact hcur cpu s (List.mem_of_mem_dropLast hs)
      · rw [List.mem_singleton] at hs
        rw [hs]
        exact havar a cur (hcur cpu cur (List.mem_of_getLast?_eq_some hl))
  | access cpu a =>
    simp only [handle, handle_access_eq] at h
    by_cases hemp : (current t.callstacks_ cpu).stack_.isEmpty = true
    · rw [if_pos hemp] at h
      simp only [Except.ok.injEq] at h
      subst h
      exact ⟨hset cpu _ (hcur cpu), ht.2⟩
    · rw [if_neg hemp] at h
      cases hf : for_each_scope (frame_access sv a) (current t.callstacks_ cpu).stack_ with
      | error e => rw [hf] at h; cases h
      | ok stack =>
        rw [hf] at h
        simp only [Except.ok.injEq] at h
        subst h
        refine ⟨hset cpu _ ?_, ht.2⟩
        intro s hs
        obtain ⟨s0, hs0, hbody⟩ := for_each_scope_mem _ _ _ hf s hs
        exact hacc a s0 s hbody (hcur cpu s0 hs0)

/-- A property of scopes that holds of a fresh scope and is kept by the two per-scope
updates holds after every trace. -/
theorem replay_all (P : Ascope → Prop) (sv : Services)
    (hnew : ∀ name cpu, P (Ascope.new name cpu))
    (havar : ∀ avar s, P s → P (avar_scope avar s))
    (hacc : ∀ access s s', frame_access sv access s = .ok s' → P s → P s')
    (trace : List mtrace_entry) (t t' : Tracker) (ht : Tracker.all P t)
    (h : replay sv t trace = .ok t') : Tracker.all P t' := by
  induction trace generalizing t with
  | nil =>
    simp only [replay, Except.ok.injEq] at h
    subst h
    exact ht
  | cons entry rest ih =>
    unfold replay at h
    cases hh : handle sv t entry with
    | error e => rw [hh] at h; cases h
    | ok t1 =>
      rw [hh] at h
      exact ih t1 (handle_all P sv hnew havar hacc t t1 entry ht hh) h

theorem init_all (P : Ascope → Prop) : Tracker.all P Tracker.init := by
  constructor
  · intro e he
    cases he
  · intro s hs
    cases hs

/-! ## Flushing -/

/-- The scopes a destroyed call stack commits: those with a declared access, from the
top of the stack downwards. -/
theorem CallStack.destroy_eq (stack : List Ascope) (scopes_ : List Ascope) :
    CallStack.destroy { stack_ := stack } scopes_
      = scopes_ ++ stack.reverse.filter
          (fun cur => !cur.aread_.isEmpty || !cur.awrite_.isEmpty) := by
  induction stack using List.reverseRecOn generalizing scopes_ with
  | nil => rw [CallStack.destroy]; simp
  | append_singleton l x ih =>
    rw [CallStack.destroy]
    simp only [List.append_eq_nil, List.cons_ne_nil, and_false, ↓reduceDIte,
      List.getLast_append_singleton, List.dropLast_concat, List.reverse_append,
      List.reverse_cons, List.reverse_nil, List.nil_append, List.singleton_append]
    rw [ih]
    by_cases hx : (!x.aread_.isEmpty || !x.awrite_.isEmpty) = true
    · simp [hx, List.filter_cons]
    · simp [hx, List.filter_cons]

/-- The replay of a concrete trace followed by the flush. -/
theorem flush_replay_eq (sv : Services) (trace : List mtrace_entry) (t : Tracker)
    (h : replay sv Tracker.init trace = .ok t) :
    Except.map flush (replay sv Tracker.init trace)
      = .ok (t.callstacks_.foldl
          (fun scopes e => scopes ++ e.2.stack_.reverse.filter
            (fun cur => !cur.aread_.isEmpty || !cur.awrite_.isEmpty)) t.scopes_) := by
  rw [h]
  simp only [Except.map, flush]
  congr 1
  have : (fun (scopes : List Ascope) (e : Int × CallStack) => e.2.destroy scopes)
      = (fun scopes e => scopes ++ e.2.stack_.reverse.filter
            (fun cur => !cur.aread_.isEmpty || !cur.awrite_.isEmpty)) := by
    funext scopes e
    exact CallStack.destroy_eq e.2.stack_ scopes
  rw [this]

theorem foldl_destroy_all (P : Ascope → Prop) (cs : List (Int × CallStack))
    (scopes : List Ascope) (hc : ∀ e ∈ cs, ∀ s ∈ e.2.stack_, P s)
    (hr : ∀ s ∈ scopes, P s) :
    ∀ s ∈ cs.foldl (fun scopes e => e.2.destroy scopes) scopes, P s := by
  induction cs generalizing scopes with
  | nil => exact hr
  | cons e es ih =>
    rw [List.foldl_cons]
    apply ih _ (fun e' he' => hc e' (List.mem_cons_of_mem _ he'))
    intro s hs
    rw [show e.2 = { stack_ := e.2.stack_ } from rfl, CallStack.destroy_eq] at hs
    rcases List.mem_append.1 hs with hs | hs
    · exact hr s hs
    · have hs' := (List.mem_filter.1 hs).1
      exact hc e (List.mem_cons_self _ _) s (List.mem_reverse.1 hs')

theorem flush_all (P : Ascope → Prop) (t : Tracker) (ht : Tracker.all P t) :
    ∀ s ∈ flush t, P s :=
  foldl_destroy_all P t.callstacks_ t.scopes_ ht.1 ht.2

/-! ## I1: the concrete key sets of a scope are disjoint -/

theorem frame_access_disjoint (sv : Services) (access : mtrace_access_entry)
    (s s' : Ascope) (h : frame_access sv access s = .ok s') (hs : disjoint_keys s) :
    disjoint_keys s' := by
  unfold frame_access access_scope at h
  cases hty : access.access_type with
  | mtrace_access_ld =>
    rw [hty] at h
    dsimp only at h
    by_cases hc : map_count (access.guest_addr &&& addr_mask) s.write_ = true
    · simp only [hc, Bool.not_true, Bool.false_eq_true, if_false, Except.ok.injEq] at h
      rw [← h]
      exact hs
    · have hk : access.guest_addr &&& addr_mask ∉ keys s.write_ :=
        fun hm => hc ((map_count_iff _ _).2 hm)
      simp only [hc, Bool.not_false, if_true, Except.ok.injEq] at h
      rw [← h]
      intro k hkr
      rcases (mem_keys_map_assign _ _ _ _).1 hkr with rfl | hkr
      · exact hk
      · exact hs k hkr
  | mtrace_access_st =>
    rw [hty] at h
    simp only [Except.ok.injEq] at h
    rw [← h]
    intro k hkr hkw
    obtain ⟨hne, hkr⟩ := (mem_keys_map_erase _ _ _).1 hkr
    dsimp only at hkw
    split at hkw
    · rcases (mem_keys_map_assign _ _ _ _).1 hkw with hkw | hkw
      · exact hne hkw
      · exact hs k hkr hkw
    · exact hs k hkr hkw
  | mtrace_access_iw =>
    rw [hty] at h
    simp only [Except.ok.injEq] at h
    rw [← h]
    intro k hkr hkw
    obtain ⟨hne, hkr⟩ := (mem_keys_map_erase _ _ _).1 hkr
    dsimp only at hkw
    split at hkw
    · rcases (mem_keys_map_assign _ _ _ _).1 hkw with hkw | hkw
      · exact hne hkw
      · exact hs k hkr hkw
    · exact hs k hkr hkw
  | other code =>
    rw [hty] at h
    cases h

theorem avar_scope_concrete (avar : mtrace_avar_entry) (s : Ascope) :
    (avar_scope avar s).read_ = s.read_ ∧ (avar_scope avar s).write_ = s.write_
      ∧ (avar_scope avar s).name_ = s.name_ ∧ (avar_scope avar s).cpu_ = s.cpu_ := by
  unfold avar_scope
  dsimp only
  split
  · exact ⟨rfl, rfl, rfl, rfl⟩
  · split
    · exact ⟨rfl, rfl, rfl, rfl⟩
    · exact ⟨rfl, rfl, rfl, rfl⟩

/-- C3 (invariant I1). From the empty analysis, after every trace of scope-enter,
scope-exit, variable-access and physical-access entries that the analysis survives,
every frame on every stack, every completed scope in the registry, and every scope of
the registry after the flush has disjoint `read_` and `write_` key sets. -/
theorem concrete_keys_disjoint (sv : Services) (trace : List mtrace_entry) (t : Tracker)
    (h : replay sv Tracker.init trace = .ok t) :
    (∀ e ∈ t.callstacks_, ∀ s ∈ e.2.stack_, disjoint_keys s)
      ∧ (∀ s ∈ t.scopes_, disjoint_keys s)
      ∧ ∀ s ∈ flush t, disjoint_keys s := by
  have hall : Tracker.all disjoint_keys t := by
    refine replay_all disjoint_keys sv ?_ ?_ (frame_access_disjoint sv) trace
      Tracker.init t (init_all _) h
    · intro name cpu k hk
      simp [Ascope.new, keys] at hk
    · intro avar s hs k hk
      rw [(avar_scope_concrete avar s).1] at hk
      rw [(avar_scope_concrete avar s).2.1]
      exact hs k hk
  exact ⟨hall.1, hall.2, flush_all _ t hall⟩

/-- C3, at an input: in `shadow_trace` a word is loaded and then stored to; the completed
scope holds it in `write_` only. -/
theorem concrete_keys_disjoint_witness :
    replay bare_services Tracker.init shadow_trace
        = .ok { callstacks_ := [(0, { stack_ := [] })], scopes_ := [shadow_foo] }
      ∧ disjoint_keys shadow_foo := by
  have h : replay bare_services Tracker.init shadow_trace
      = .ok { callstacks_ := [(0, { stack_ := [] })], scopes_ := [shadow_foo] } := rfl
  exact ⟨h, (concrete_keys_disjoint bare_services shadow_trace _ h).2.1 shadow_foo
    (List.mem_singleton.2 rfl)⟩

/-! ## I2: written names shadow read names -/

theorem avar_scope_awrite_mono (avar : mtrace_avar_entry) (s : Ascope) (v : String)
    (hv : v ∈ s.awrite_) : v ∈ (avar_scope avar s).awrite_ := by
  unfold avar_scope
  dsimp only
  split
  · exact (mem_set_insert _ _ _).2 (Or.inr hv)
  · split
    · exact hv
    · exact hv

theorem avar_scope_disjoint_names (avar : mtrace_avar_entry) (s : Ascope)
    (hs : disjoint_names s) : disjoint_names (avar_scope avar s) := by
  unfold avar_scope
  dsimp only
  split
  · intro x hx hxr
    obtain ⟨hne, hxr⟩ := (mem_set_erase _ _ _).1 hxr
    rcases (mem_set_insert _ _ _).1 hx with hx | hx
    · exact hne hx
    · exact hs x hx hxr
  · split
    · rename_i hc
      have hnot : avar.name ∉ s.awrite_ := by
        intro hm
        rw [(set_count_iff _ _).2 hm] at hc
        simp at hc
      intro x hx hxr
      rcases (mem_set_insert _ _ _).1 hxr with hxr | hxr
      · rw [hxr] at hx
        exact hnot hx
      · exact hs x hx hxr
    · exact hs

theorem frame_avars_append (cur : Ascope) (l1 l2 : List mtrace_avar_entry) :
    frame_avars cur (l1 ++ l2) = frame_avars (frame_avars cur l1) l2 := by
  unfold frame_avars
  rw [List.foldl_append]

theorem frame_avars_awrite_mono (cur : Ascope) (avars : List mtrace_avar_entry) (v : String)
    (hv : v ∈ cur.awrite_) : v ∈ (frame_avars cur avars).awrite_ := by
  induction avars generalizing cur with
  | nil => exact hv
  | cons a as ih => exact ih (avar_scope a cur) (avar_scope_awrite_mono a cur v hv)

theorem frame_avars_disjoint_names (cur : Ascope) (avars : List mtrace_avar_entry)
    (hs : disjoint_names cur) : disjoint_names (frame_avars cur avars) := by
  induction avars generalizing cur with
  | nil => exact hs
  | cons a as ih => exact ih (avar_scope a cur) (avar_scope_disjoint_names a cur hs)

/-- C4 (invariant I2, write shadowing on names). For a frame whose written names are
absent from its read names (a fresh frame is one) and every sequence of variable
accesses applied to it: a name that is in `awrite_` after some accesses is in `awrite_`
and absent from `aread_` after every later access; `awrite_` and `aread_` are disjoint
throughout; and on a fresh frame, write `v` then read `v` leaves `awrite_ = {v}` and
`aread_` empty. -/
theorem abstract_write_shadows (cur : Ascope) (hcur : disjoint_names cur)
    (before later : List mtrace_avar_entry) (v : String)
    (hv : v ∈ (frame_avars cur before).awrite_) :
    v ∈ (frame_avars cur (before ++ later)).awrite_
      ∧ v ∉ (frame_avars cur (before ++ later)).aread_
      ∧ disjoint_names (frame_avars cur (before ++ later))
      ∧ ∀ name cpu w,
          (frame_avars (Ascope.new name cpu) [⟨w, true⟩, ⟨w, false⟩]).awrite_ = [w]
          ∧ (frame_avars (Ascope.new name cpu) [⟨w, true⟩, ⟨w, false⟩]).aread_ = [] := by
  have hd := frame_avars_disjoint_names cur (before ++ later) hcur
  have hw : v ∈ (frame_avars cur (before ++ later)).awrite_ := by
    rw [frame_avars_append]
    exact frame_avars_awrite_mono _ later v hv
  refine ⟨hw, hd v hw, hd, ?_⟩
  intro name cpu w
  simp [frame_avars, avar_scope, Ascope.new, set_insert, set_erase, set_count]

/-- C4, at an input: a fresh frame reads `v`, writes `v`, then reads `v` and `u`. -/
theorem abstract_write_shadows_witness :
    "v" ∈ (frame_avars (Ascope.new "foo" 0)
        ([⟨"v", false⟩, ⟨"v", true⟩] ++ [⟨"v", false⟩, ⟨"u", false⟩])).awrite_
      ∧ "v" ∉ (frame_avars (Ascope.new "foo" 0)
        ([⟨"v", false⟩, ⟨"v", true⟩] ++ [⟨"v", false⟩, ⟨"u", false⟩])).aread_ := by
  have h := abstract_write_shadows (Ascope.new "foo" 0)
    (by intro x hx; simp [Ascope.new] at hx)
    [⟨"v", false⟩, ⟨"v", true⟩] [⟨"v", false⟩, ⟨"u", false⟩] "v" (by decide)
  exact ⟨h.1, h.2.1⟩

/-! ## Retention of the records of a frame -/

theorem frame_access_load (sv : Services) (access : mtrace_access_entry) (s : Ascope)
    (hty : access.access_type = .mtrace_access_ld) :
    frame_access sv access s =
      if !map_count (access.guest_addr &&& addr_mask) s.write_ then
        .ok { s with read_ := map_assign (access.guest_addr &&& addr_mask)
                                (make_pa sv access) s.read_ }
      else .ok s := by
  unfold frame_access access_scope
  rw [hty]

theorem frame_access_store (sv : Services) (access : mtrace_access_entry) (s : Ascope)
    (hty : write_like access.access_type) :
    frame_access sv access s =
      .ok { s with
        write_ := if !map_count (access.guest_addr &&& addr_mask) s.write_ then
                    map_assign (access.guest_addr &&& addr_mask) (make_pa sv access) s.write_
                  else s.write_,
        read_ := map_erase (access.guest_addr &&& addr_mask) s.read_ } := by
  unfold frame_access access_scope
  rcases hty with hty | hty <;> rw [hty]

theorem known_kind_cases (t : mtrace_access_t) (h : known_kind t) :
    t = .mtrace_access_ld ∨ write_like t := by
  rcases h with h | h | h
  · exact Or.inl h
  · exact Or.inr (Or.inl h)
  · exact Or.inr (Or.inr h)

theorem frame_access_known (sv : Services) (access : mtrace_access_entry) (s : Ascope)
    (h : known_kind access.access_type) : ∃ s', frame_access sv access s = .ok s' := by
  rcases known_kind_cases _ h with hty | hty
  · rw [frame_access_load sv access s hty]
    split
    · exact ⟨_, rfl⟩
    · exact ⟨_, rfl⟩
  · rw [frame_access_store sv access s hty]
    exact ⟨_, rfl⟩

theorem frame_accesses_cons_ok (sv : Services) (access : mtrace_access_entry)
    (rest : List mtrace_access_entry) (s s' : Ascope)
    (h : frame_access sv access s = .ok s') :
    frame_accesses sv s (access :: rest) = frame_accesses sv s' rest := by
  rw [frame_accesses, h]

theorem frame_accesses_concat_ok (sv : Services) (accesses : List mtrace_access_entry)
    (last : mtrace_access_entry) (s s' : Ascope)
    (h : frame_accesses sv s accesses = .ok s') :
    frame_accesses sv s (accesses ++ [last]) = frame_access sv last s' := by
  induction accesses generalizing s with
  | nil =>
    simp only [frame_accesses, Except.ok.injEq] at h
    subst h
    simp only [List.nil_append, frame_accesses]
    cases frame_access sv last s <;> rfl
  | cons a as ih =>
    rw [List.cons_append]
    unfold frame_accesses at h ⊢
    cases ha : frame_access sv a s with
    | error e => rw [ha] at h; cases h
    | ok s1 =>
      rw [ha] at h
      exact ih s1 h

/-- A sequence of accesses of known kinds none of which is write-like on the word `k`
returns a frame, and that frame has no record for `k` in `write_` if it had none. -/
theorem frame_accesses_no_write (sv : Services) (k : Nat)
    (accesses : List mtrace_access_entry) (s : Ascope)
    (hknown : ∀ x ∈ accesses, known_kind x.access_type)
    (hother : ∀ x ∈ accesses, write_like x.access_type → x.guest_addr &&& addr_mask ≠ k)
    (hk : k ∉ keys s.write_) :
    ∃ s', frame_accesses sv s accesses = .ok s' ∧ k ∉ keys s'.write_ := by
  induction accesses generalizing s with
  | nil => exact ⟨s, rfl, hk⟩
  | cons a as ih =>
    have hka := hknown a (List.mem_cons_self _ _)
    have hrest := fun s1 (h1 : k ∉ keys s1.write_) =>
      ih s1 (fun x hx => hknown x (List.mem_cons_of_mem _ hx))
        (fun x hx => hother x (List.mem_cons_of_mem _ hx)) h1
    rcases known_kind_cases _ hka with hty | hty
    · have hstep := frame_access_load sv a s hty
      split at hstep
      · rw [frame_accesses_cons_ok sv a as s _ hstep]
        exact hrest _ hk
      · rw [frame_accesses_cons_ok sv a as s _ hstep]
        exact hrest _ hk
    · have hstep := frame_access_store sv a s hty
      rw [frame_accesses_cons_ok sv a as s _ hstep]
      apply hrest
      dsimp only
      have hne := hother a (List.mem_cons_self _ _) hty
      split
      · intro hm
        rcases (mem_keys_map_assign _ _ _ _).1 hm with hm | hm
        · exact hne hm.symm
        · exact hk hm
      · exact hk

/-- C5 as stated fails: after the two loads of `two_loads` on a fresh frame, from program
counters 7 then 8, the record kept in `read_` for the word carries program counter 8. -/
theorem first_read_not_retained :
    Except.map (fun s => (map_find 0x1000 s.read_).map PhysicalAccess.pc)
        (frame_accesses bare_services (Ascope.new "foo" 0) two_loads)
      = .ok (some 8) := by
  rfl

/-- C5, amended (last read wins). For every frame with no record for the word `k` in
`write_`, a load of `k`, then any accesses of known kinds none of which is write-like on
`k`, then a second load of `k`: the frame is returned, and the record kept in `read_`
for `k` is the one built by the second load, with the second program counter. -/
theorem last_read_wins (sv : Services) (scope : Ascope)
    (first second : mtrace_access_entry) (between : List mtrace_access_entry)
    (h1 : first.access_type = .mtrace_access_ld)
    (h2 : second.access_type = .mtrace_access_ld)
    (hsame : first.guest_addr &&& addr_mask = second.guest_addr &&& addr_mask)
    (hknown : ∀ x ∈ between, known_kind x.access_type)
    (hother : ∀ x ∈ between, write_like x.access_type →
      x.guest_addr &&& addr_mask ≠ second.guest_addr &&& addr_mask)
    (hk : second.guest_addr &&& addr_mask ∉ keys scope.write_) :
    ∃ s', frame_accesses sv scope (first :: between ++ [second]) = .ok s'
      ∧ map_find (second.guest_addr &&& addr_mask) s'.read_ = some (make_pa sv second)
      ∧ (make_pa sv second).pc = second.pc := by
  have hkn : ∀ x ∈ first :: between, known_kind x.access_type := by
    intro x hx
    rcases List.mem_cons.1 hx with rfl | hx
    · exact Or.inl h1
    · exact hknown x hx
  have hot : ∀ x ∈ first :: between, write_like x.access_type →
      x.guest_addr &&& addr_mask ≠ second.guest_addr &&& addr_mask := by
    intro x hx hw
    rcases List.mem_cons.1 hx with rfl | hx
    · rcases hw with hw | hw <;> rw [h1] at hw <;> cases hw
    · exact hother x hx hw
  obtain ⟨s1, hs1, hk1⟩ := frame_accesses_no_write sv _ (first :: between) scope hkn hot hk
  have hc : map_count (second.guest_addr &&& addr_mask) s1.write_ = false := by
    rw [Bool.eq_false_iff]
    exact fun hm => hk1 ((map_count_iff _ _).1 hm)
  refine ⟨{ s1 with read_ := map_assign (second.guest_addr &&& addr_mask)
                                (make_pa sv second) s1.read_ }, ?_, ?_, ?_⟩
  · rw [frame_accesses_concat_ok sv (first :: between) second scope s1 hs1,
      frame_access_load sv second s1 h2, hc]
    rfl
  · exact map_find_map_assign_self _ _ _
  · unfold make_pa
    dsimp only
    split <;> rfl

/-- C5 amended, at an input: the two loads of `two_loads` on a fresh frame. -/
theorem last_read_wins_witness :
    ∃ s', frame_accesses bare_services (Ascope.new "foo" 0) two_loads = .ok s'
      ∧ map_find 0x1000 s'.read_
          = some { type := "", base := 0, access := 0x1000, pc := 8 } := by
  obtain ⟨s', h, hf, _⟩ := last_read_wins bare_services (Ascope.new "foo" 0)
    ⟨.mtrace_access_ld, 0x1000, 7⟩ ⟨.mtrace_access_ld, 0x1000, 8⟩ [] rfl rfl rfl
    (by intro x hx; cases hx) (by intro x hx; cases hx) (by decide)
  exact ⟨s', h, hf⟩

/-- A record kept in `write_` for the word `k`, with `k` absent from `read_`, stays so
under one access of a known kind. -/
theorem frame_access_keeps_write (sv : Services) (k : Nat) (r : PhysicalAccess)
    (access : mtrace_access_entry) (s : Ascope)
    (hknown : known_kind access.access_type)
    (hw : map_find k s.write_ = some r) (hr : k ∉ keys s.read_) :
    ∃ s', frame_access sv access s = .ok s'
      ∧ map_find k s'.write_ = some r ∧ k ∉ keys s'.read_ := by
  have hkw : k ∈ keys s.write_ := (map_find_isSome_iff k s.write_).1 (by rw [hw]; rfl)
  rcases known_kind_cases _ hknown with hty | hty
  · rw [frame_access_load sv access s hty]
    split
    · rename_i hc
      refine ⟨_, rfl, hw, ?_⟩
      have hne : k ≠ access.guest_addr &&& addr_mask := by
        intro heq
        rw [← heq, (map_count_iff _ _).2 hkw] at hc
        simp at hc
      intro hm
      rcases (mem_keys_map_assign _ _ _ _).1 hm with hm | hm
      · exact hne hm
      · exact hr hm
    · exact ⟨_, rfl, hw, hr⟩
  · rw [frame_access_store sv access s hty]
    refine ⟨_, rfl, ?_, ?_⟩
    · dsimp only
      split
      · rename_i hc
        have hne : k ≠ access.guest_addr &&& addr_mask := by
          intro heq
          rw [← heq, (map_count_iff _ _).2 hkw] at hc
          simp at hc
        rw [map_find_map_assign_of_ne _ _ _ _ hne]
        exact hw
      · exact hw
    · intro hm
      exact hr ((mem_keys_map_erase _ _ _).1 hm).2

theorem frame_accesses_keep_write (sv : Services) (k : Nat) (r : PhysicalAccess)
    (accesses : List mtrace_access_entry) (s : Ascope)
    (hknown : ∀ x ∈ accesses, known_kind x.access_type)
    (hw : map_find k s.write_ = some r) (hr : k ∉ keys s.read_) :
    ∃ s', frame_accesses sv s accesses = .ok s'
      ∧ map_find k s'.write_ = some r ∧ k ∉ keys s'.read_ := by
  induction accesses generalizing s with
  | nil => exact ⟨s, rfl, hw, hr⟩
  | cons a as ih =>
    obtain ⟨s1, h1, hw1, hr1⟩ :=
      frame_access_keeps_write sv k r a s (hknown a (List.mem_cons_self _ _)) hw hr
    rw [frame_accesses_cons_ok sv a as s s1 h1]
    exact ih s1 (fun x hx => hknown x (List.mem_cons_of_mem _ hx)) hw1 hr1

/-- C6 (first write wins). For every frame with no record for the word `k` in `write_`, a
store or interrupt write to `k` followed by any accesses of known kinds, to `k` or
elsewhere: the frame is returned, `write_` holds for `k` exactly the record built by
that first write, with its program counter, and `k` is absent from `read_`. -/
theorem first_write_wins (sv : Services) (scope : Ascope) (first : mtrace_access_entry)
    (later : List mtrace_access_entry)
    (hfirst : write_like first.access_type)
    (hk : first.guest_addr &&& addr_mask ∉ keys scope.write_)
    (hknown : ∀ x ∈ later, known_kind x.access_type) :
    ∃ s', frame_accesses sv scope (first :: later) = .ok s'
      ∧ map_find (first.guest_addr &&& addr_mask) s'.write_ = some (make_pa sv first)
      ∧ (make_pa sv first).pc = first.pc
      ∧ first.guest_addr &&& addr_mask ∈ keys s'.write_
      ∧ first.guest_addr &&& addr_mask ∉ keys s'.read_ := by
  have hc : map_count (first.guest_addr &&& addr_mask) scope.write_ = false := by
    rw [Bool.eq_false_iff]
    exact fun hm => hk ((map_count_iff _ _).1 hm)
  have hstep : frame_access sv first scope = .ok
      { scope with
        write_ := map_assign (first.guest_addr &&& addr_mask) (make_pa sv first) scope.write_,
        read_ := map_erase (first.guest_addr &&& addr_mask) scope.read_ } := by
    rw [frame_access_store sv first scope hfirst, hc]
    rfl
  rw [frame_accesses_cons_ok sv first later scope _ hstep]
  obtain ⟨s', hs', hw', hr'⟩ := frame_accesses_keep_write sv
    (first.guest_addr &&& addr_mask) (make_pa sv first) later
    { scope with
      write_ := map_assign (first.guest_addr &&& addr_mask) (make_pa sv first) scope.write_,
      read_ := map_erase (first.guest_addr &&& addr_mask) scope.read_ } hknown
    (map_find_map_assign_self _ _ _)
    (fun hm => ((mem_keys_map_erase _ _ _).1 hm).1 rfl)
  refine ⟨s', hs', hw', ?_, ?_, hr'⟩
  · unfold make_pa
    dsimp only
    split <;> rfl
  · exact (map_find_isSome_iff _ _).1 (by rw [hw']; rfl)

/-- C6, at an input: `store_then_others` on a frame that has already loaded the word. -/
theorem first_write_wins_witness :
    ∃ s', frame_accesses bare_services
        { name_ := "foo", cpu_ := 0, aread_ := [], awrite_ := [],
          read_ := [(0x1000, { type := "", base := 0, access := 0x1000, pc := 3 })],
          write_ := [] } store_then_others = .ok s'
      ∧ map_find 0x1000 s'.write_ = some { type := "", base := 0, access := 0x1001, pc := 7 }
      ∧ 0x1000 ∉ keys s'.read_ := by
  obtain ⟨s', h, hw, _, _, hr⟩ := first_write_wins bare_services
    { name_ := "foo", cpu_ := 0, aread_ := [], awrite_ := [],
      read_ := [(0x1000, { type := "", base := 0, access := 0x1000, pc := 3 })],
      write_ := [] }
    ⟨.mtrace_access_st, 0x1001, 7⟩
    [⟨.mtrace_access_ld, 0x1000, 8⟩, ⟨.mtrace_access_iw, 0x1003, 9⟩,
      ⟨.mtrace_access_ld, 0x2000, 10⟩]
    (Or.inl rfl) (by decide)
    (by intro x hx; fin_cases hx <;> simp [known_kind])
  exact ⟨s', h, hw, hr⟩

/-- C1, at the failing input. The concrete sharing test misses a word two scopes both
wrote: in `word_trace` the scopes `foo` and `bar` both hold key `0x1000` in `write_`,
their records differ in the stored address, and `shares` finds nothing. -/
theorem concrete_sharing_misses_common_word :
    Except.map flush (replay bare_services Tracker.init word_trace) = .ok [word_foo, word_bar]
      ∧ 0x1000 ∈ keys word_foo.write_ ∧ 0x1000 ∈ keys word_bar.write_
      ∧ shares pair_lt word_foo.read_ word_foo.write_ word_bar.read_ word_bar.write_
          = none := by
  refine ⟨?_, by decide, by decide, ?_⟩
  · rw [flush_replay_eq bare_services word_trace _ rfl]
    rfl
  · simp [shares, intersects, word_foo, word_bar, pair_lt, PhysicalAccess.lt]

/-! ## The enumeration of shared addresses -/

/-- C7, at the failing input. The enumeration of an incident misses a word both scopes
wrote: in `two_words_trace` the scopes `foo` and `bar` both hold the keys `0x1000` and
`0x2000` in `write_`, the pair is classified unshared/shared, and the one incident lists
one entry, for `0x1000`. -/
theorem shared_list_misses_common_word :
    Except.map flush (replay bare_services Tracker.init two_words_trace)
        = .ok [two_words_foo, two_words_bar]
      ∧ keys two_words_foo.write_ = [0x1000, 0x2000]
      ∧ keys two_words_bar.write_ = [0x1000, 0x2000]
      ∧ outer_loop bare_services [two_words_foo, two_words_bar] Detection.init
          = { compared_scopes := 1, shared_scopes := ⟨0, 1, 0, 0⟩,
              lst := [{ s1 := "foo", s2 := "bar",
                        shared := [{ addr := "0x1000", pc := none,
                                     pc1 := some "7", pc2 := some "9" }] }],
              warnings := [] } := by
  refine ⟨?_, rfl, rfl, ?_⟩
  · rw [flush_replay_eq bare_services two_words_trace _ rfl]
    rfl
  · simp +decide [outer_loop, inner_loop, compare_pair, two_words_foo, two_words_bar, shares,
      intersects, shared_to_json, Detection.init]

/-! ## The pairs the detector compares -/

theorem compare_pair_compared (sv : Services) (s1 s2 : Ascope) (d : Detection) :
    (compare_pair sv s1 s2 d).compared_scopes
      = d.compared_scopes + if s1.cpu_ ≠ s2.cpu_ then 1 else 0 := by
  unfold compare_pair
  by_cases h : s1.cpu_ = s2.cpu_
  · simp [h]
  · rw [if_neg h, if_pos h]
    dsimp only
    split
    · rfl
    · split
      · split <;> rfl
      · rfl

section Symmetry

variable {α β : Type} [LinearOrder β]

theorem intersects_isSome_comm (lt : α → α → Bool) (f : α → β)
    (hlt : ∀ a b, lt a b = true ↔ f a < f b) (l1 l2 : List α)
    (h1 : l1.Pairwise (fun a b => f a < f b)) (h2 : l2.Pairwise (fun a b => f a < f b)) :
    (intersects lt l1 l2).isSome = (intersects lt l2 l1).isSome := by
  rw [Bool.eq_iff_iff, intersects_isSome_iff lt f hlt l1 l2 h1 h2,
    intersects_isSome_iff lt f hlt l2 l1 h2 h1]
  constructor
  · rintro ⟨a, ha, b, hb, hab⟩
    exact ⟨b, hb, a, ha, hab.symm⟩
  · rintro ⟨a, ha, b, hb, hab⟩
    exact ⟨b, hb, a, ha, hab.symm⟩

theorem shares_isSome (lt : α → α → Bool) (r1 w1 r2 w2 : List α) :
    (shares lt r1 w1 r2 w2).isSome
      = ((intersects lt r1 w2).isSome || (intersects lt w1 r2).isSome
          || (intersects lt w1 w2).isSome) := by
  unfold shares
  cases intersects lt r1 w2 with
  | some x => rfl
  | none =>
    cases intersects lt w1 r2 with
    | some y => rfl
    | none => simp

theorem shares_isSome_comm (lt : α → α → Bool) (f : α → β)
    (hlt : ∀ a b, lt a b = true ↔ f a < f b) (r1 w1 r2 w2 : List α)
    (hr1 : r1.Pairwise (fun a b => f a < f b)) (hw1 : w1.Pairwise (fun a b => f a < f b))
    (hr2 : r2.Pairwise (fun a b => f a < f b)) (hw2 : w2.Pairwise (fun a b => f a < f b)) :
    (shares lt r1 w1 r2 w2).isSome = (shares lt r2 w2 r1 w1).isSome := by
  rw [shares_isSome, shares_isSome,
    intersects_isSome_comm lt f hlt r2 w1 hr2 hw1,
    intersects_isSome_comm lt f hlt w2 r1 hw2 hr1,
    intersects_isSome_comm lt f hlt w2 w1 hw2 hw1]
  cases (intersects lt r1 w2).isSome <;> cases (intersects lt w1 r2).isSome <;> rfl

end Symmetry

theorem pair_lt_iff (p q : Nat × PhysicalAccess) :
    pair_lt p q = true ↔ pair_key p < pair_key q := by
  unfold pair_lt pair_key PhysicalAccess.lt
  rw [Prod.Lex.lt_iff]
  simp only [Bool.or_eq_true, Bool.and_eq_true, Bool.not_eq_true', decide_eq_true_eq,
    decide_eq_false_iff_not]
  constructor
  · rintro (h | ⟨h1, h2⟩)
    · exact Or.inl h
    · by_cases h3 : p.1 < q.1
      · exact Or.inl h3
      · exact Or.inr ⟨by omega, h2⟩
  · rintro (h | ⟨h1, h2⟩)
    · exact Or.inl h
    · exact Or.inr ⟨by omega, h2⟩

theorem key_ordered_pair_key (m : List (Nat × PhysicalAccess)) (h : key_ordered m) :
    m.Pairwise (fun a b => pair_key a < pair_key b) := by
  refine List.Pairwise.imp ?_ h
  intro a b hab
  unfold pair_key
  rw [Prod.Lex.lt_iff]
  exact Or.inl hab

theorem compare_pair_shared_scopes (sv : Services) (s1 s2 : Ascope) (d : Detection) :
    (compare_pair sv s1 s2 d).shared_scopes
      = if s1.cpu_ = s2.cpu_ then d.shared_scopes
        else d.shared_scopes.incr (classify s1 s2).1 (classify s1 s2).2 := by
  unfold compare_pair classify
  by_cases h : s1.cpu_ = s2.cpu_
  · simp [h]
  · rw [if_neg h, if_neg h]
    dsimp only
    split
    · rfl
    · split
      · split <;> rfl
      · rfl

/-- C10 (classification symmetry). For all scopes whose sets and maps are in key order,
the pair (abstract sharing?, concrete sharing?) computed for `(s1, s2)` equals the one
computed for `(s2, s1)`, and the pairwise loop counts the pair in the same histogram
cell and the same compared-scopes counter in either order. -/
theorem classification_symmetric (sv : Services) (s1 s2 : Ascope)
    (h1 : s1.ordered) (h2 : s2.ordered) :
    classify s1 s2 = classify s2 s1
      ∧ ∀ d, (compare_pair sv s1 s2 d).shared_scopes = (compare_pair sv s2 s1 d).shared_scopes
          ∧ (compare_pair sv s1 s2 d).compared_scopes
              = (compare_pair sv s2 s1 d).compared_scopes := by
  obtain ⟨har1, haw1, hr1, hw1⟩ := h1
  obtain ⟨har2, haw2, hr2, hw2⟩ := h2
  have hcl : classify s1 s2 = classify s2 s1 := by
    unfold classify
    rw [shares_isSome_comm string_lt id (fun a b => string_lt_iff a b) _ _ _ _
        ((ascending_iff _).1 har1) ((ascending_iff _).1 haw1)
        ((ascending_iff _).1 har2) ((ascending_iff _).1 haw2),
      shares_isSome_comm pair_lt pair_key pair_lt_iff _ _ _ _
        (key_ordered_pair_key _ hr1) (key_ordered_pair_key _ hw1)
        (key_ordered_pair_key _ hr2) (key_ordered_pair_key _ hw2)]
  refine ⟨hcl, fun d => ⟨?_, ?_⟩⟩
  · rw [compare_pair_shared_scopes, compare_pair_shared_scopes, hcl]
    by_cases h : s1.cpu_ = s2.cpu_
    · rw [if_pos h, if_pos h.symm]
    · rw [if_neg h, if_neg (fun h' => h h'.symm)]
  · rw [compare_pair_compared, compare_pair_compared]
    by_cases h : s1.cpu_ = s2.cpu_
    · simp [h]
    · have h' : ¬ s2.cpu_ = s1.cpu_ := fun h' => h h'.symm
      simp [h, h']

/-- C10, at an input: `swap_left` against `swap_right` is shared/shared in either order,
while the witnessing names differ (`b` one way, `a` the other). -/
theorem classification_symmetric_witness :
    classify swap_left swap_right = classify swap_right swap_left
      ∧ classify swap_left swap_right = (true, true)
      ∧ shares string_lt swap_left.aread_ swap_left.awrite_
          swap_right.aread_ swap_right.awrite_ = some "b"
      ∧ shares string_lt swap_right.aread_ swap_right.awrite_
          swap_left.aread_ swap_left.awrite_ = some "a" := by
  have h := classification_symmetric bare_services swap_left swap_right
    (by unfold Ascope.ordered ascending key_ordered; decide)
    (by unfold Ascope.ordered ascending key_ordered; decide)
  refine ⟨h.1, ?_, ?_, ?_⟩
  · simp +decide [classify, shares, intersects, swap_left, swap_right]
  · simp +decide [shares, intersects, swap_left, swap_right]
  · simp +decide [shares, intersects, swap_left, swap_right]

/-! ## The containers of every scope are in iteration order -/

theorem ascending_set_insert (x : String) (s : List String) (h : ascending s) :
    ascending (set_insert x s) := by
  unfold ascending at h ⊢
  induction s with
  | nil => simp [set_insert]
  | cons y ys ih =>
    obtain ⟨hy, hys⟩ := List.pairwise_cons.1 h
    unfold set_insert
    by_cases h1 : string_lt x y = true
    · rw [if_pos h1]
      refine List.pairwise_cons.2 ⟨?_, h⟩
      intro z hz
      rcases List.mem_cons.1 hz with rfl | hz
      · exact h1
      · exact (string_lt_iff _ _).2
          (lt_trans ((string_lt_iff _ _).1 h1) ((string_lt_iff _ _).1 (hy z hz)))
    · rw [if_neg h1]
      by_cases h2 : string_lt y x = true
      · rw [if_pos h2]
        refine List.pairwise_cons.2 ⟨?_, ih hys⟩
        intro z hz
        rcases (mem_set_insert _ _ _).1 hz with rfl | hz
        · exact h2
        · exact hy z hz
      · rw [if_neg h2]
        exact h

theorem ascending_set_erase (x : String) (s : List String) (h : ascending s) :
    ascending (set_erase x s) :=
  List.Pairwise.filter _ h

theorem mem_map_assign {β : Type} (k : Nat) (v : β) (m : List (Nat × β)) (e : Nat × β)
    (he : e ∈ map_assign k v m) : e = (k, v) ∨ e ∈ m := by
  induction m with
  | nil =>
    simp only [map_assign, List.mem_singleton] at he
    exact Or.inl he
  | cons x xs ih =>
    unfold map_assign at he
    by_cases h1 : k < x.1
    · rw [if_pos h1] at he
      rcases List.mem_cons.1 he with he | he
      · exact Or.inl he
      · exact Or.inr he
    · rw [if_neg h1] at he
      by_cases h2 : x.1 < k
      · rw [if_pos h2] at he
        rcases List.mem_cons.1 he with he | he
        · exact Or.inr (by rw [he]; exact List.mem_cons_self _ _)
        · rcases ih he with h | h
          · exact Or.inl h
          · exact Or.inr (List.mem_cons_of_mem _ h)
      · rw [if_neg h2] at he
        rcases List.mem_cons.1 he with he | he
        · exact Or.inl he
        · exact Or.inr (List.mem_cons_of_mem _ he)

theorem key_ordered_map_assign (k : Nat) (v : PhysicalAccess)
    (m : List (Nat × PhysicalAccess)) (h : key_ordered m) :
    key_ordered (map_assign k v m) := by
  unfold key_ordered at h ⊢
  induction m with
  | nil => simp [map_assign]
  | cons x xs ih =>
    obtain ⟨hx, hxs⟩ := List.pairwise_cons.1 h
    unfold map_assign
    by_cases h1 : k < x.1
    · rw [if_pos h1]
      refine List.pairwise_cons.2 ⟨?_, h⟩
      intro z hz
      rcases List.mem_cons.1 hz with rfl | hz
      · exact h1
      · exact lt_trans h1 (hx z hz)
    · rw [if_neg h1]
      by_cases h2 : x.1 < k
      · rw [if_pos h2]
        refine List.pairwise_cons.2 ⟨?_, ih hxs⟩
        intro z hz
        rcases mem_map_assign _ _ _ _ hz with rfl | hz
        · exact h2
        · exact hx z hz
      · rw [if_neg h2]
        have hk : x.1 = k := by omega
        refine List.pairwise_cons.2 ⟨?_, hxs⟩
        intro z hz
        have := hx z hz
        dsimp only
        omega

theorem key_ordered_map_erase (k : Nat) (m : List (Nat × PhysicalAccess))
    (h : key_ordered m) : key_ordered (map_erase k m) :=
  List.Pairwise.filter _ h

theorem avar_scope_ordered (avar : mtrace_avar_entry) (s : Ascope) (h : s.ordered) :
    (avar_scope avar s).ordered := by
  obtain ⟨h1, h2, h3, h4⟩ := h
  unfold avar_scope
  dsimp only
  split
  · exact ⟨ascending_set_erase _ _ h1, ascending_set_insert _ _ h2, h3, h4⟩
  · split
    · exact ⟨ascending_set_insert _ _ h1, h2, h3, h4⟩
    · exact ⟨h1, h2, h3, h4⟩

theorem frame_access_ordered (sv : Services) (access : mtrace_access_entry)
    (s s' : Ascope) (h : frame_access sv access s = .ok s') (hs : s.ordered) :
    s'.ordered := by
  obtain ⟨h1, h2, h3, h4⟩ := hs
  cases hty : access.access_type with
  | mtrace_access_ld =>
    rw [frame_access_load sv access s hty] at h
    split at h
    · simp only [Except.ok.injEq] at h
      rw [← h]
      exact ⟨h1, h2, key_ordered_map_assign _ _ _ h3, h4⟩
    · simp only [Except.ok.injEq] at h
      rw [← h]
      exact ⟨h1, h2, h3, h4⟩
  | mtrace_access_st =>
    rw [frame_access_store sv access s (Or.inl hty)] at h
    simp only [Except.ok.injEq] at h
    rw [← h]
    refine ⟨h1, h2, key_ordered_map_erase _ _ h3, ?_⟩
    dsimp only
    split
    · exact key_ordered_map_assign _ _ _ h4
    · exact h4
  | mtrace_access_iw =>
    rw [frame_access_store sv access s (Or.inr hty)] at h
    simp only [Except.ok.injEq] at h
    rw [← h]
    refine ⟨h1, h2, key_ordered_map_erase _ _ h3, ?_⟩
    dsimp only
    split
    · exact key_ordered_map_assign _ _ _ h4
    · exact h4
  | other code =>
    unfold frame_access access_scope at h
    rw [hty] at h
    cases h

/-- Every scope the replay of a trace produces has its containers in iteration order. -/
theorem replay_ordered (sv : Services) (trace : List mtrace_entry) (t : Tracker)
    (h : replay sv Tracker.init trace = .ok t) : ∀ s ∈ flush t, s.ordered := by
  apply flush_all
  refine replay_all Ascope.ordered sv ?_ avar_scope_ordered (frame_access_ordered sv) trace
    Tracker.init t (init_all _) h
  intro name cpu
  exact ⟨List.Pairwise.nil, List.Pairwise.nil, List.Pairwise.nil, List.Pairwise.nil⟩

/-! ## What an enumeration lists -/

theorem pair_lt_iff_keys (p q : Nat × PhysicalAccess) :
    pair_lt p q = true ↔ p.1 < q.1 ∨ (p.1 = q.1 ∧ p.2.access < q.2.access) := by
  rw [pair_lt_iff]
  unfold pair_key
  rw [Prod.Lex.lt_iff]

theorem same_entry_of_not_lt (a b : Nat × PhysicalAccess)
    (hab : ¬ pair_lt a b = true) (hba : ¬ pair_lt b a = true) : same_entry a b = true := by
  rw [pair_lt_iff_keys] at hab hba
  unfold same_entry
  rw [decide_eq_true_eq]
  constructor <;> omega

theorem same_entry_false_of_key_ne (a b : Nat × PhysicalAccess) (h : a.1 ≠ b.1) :
    same_entry a b = false := by
  unfold same_entry
  rw [decide_eq_false_iff_not]
  exact fun hs => h hs.1

theorem same_entry_false_of_lt (a b : Nat × PhysicalAccess) (h : pair_lt a b = true) :
    same_entry a b = false ∧ same_entry b a = false := by
  rw [pair_lt_iff_keys] at h
  unfold same_entry
  rw [decide_eq_false_iff_not, decide_eq_false_iff_not]
  constructor
  · rintro ⟨h1, h2⟩
    omega
  · rintro ⟨h1, h2⟩
    omega

/-- On two key-ordered maps the enumeration appends exactly the same entries of the
two maps, in the order of the first. -/
theorem shared_to_json_eq (sv : Services) (shared : List AccessJson)
    (l1 l2 : List (Nat × PhysicalAccess)) (h1 : key_ordered l1) (h2 : key_ordered l2) :
    shared_to_json sv shared l1 l2 = shared ++ shared_entries sv l1 l2 := by
  unfold key_ordered at h1 h2
  induction shared, l1, l2 using shared_to_json.induct sv with
  | case1 shared l2 => simp [shared_to_json, shared_entries]
  | case2 shared a as =>
    rw [shared_to_json]
    simp [shared_entries]
  | case3 shared a as b bs hab ih =>
    rw [shared_to_json, if_pos hab, ih (List.pairwise_cons.1 h1).2 h2]
    congr 1
    unfold shared_entries
    rw [List.filterMap_cons]
    have hnone : (b :: bs).find? (same_entry a) = none := by
      rw [List.find?_eq_none]
      intro y hy
      rw [Bool.not_eq_true]
      rcases List.mem_cons.1 hy with rfl | hy
      · exact (same_entry_false_of_lt a y hab).1
      · apply same_entry_false_of_key_ne
        have hby := (List.pairwise_cons.1 h2).1 y hy
        have := (pair_lt_iff_keys a b).1 hab
        omega
    rw [hnone]
    rfl
  | case4 shared a as b bs hab hba ih =>
    rw [shared_to_json, if_neg hab, if_pos hba, ih h1 (List.pairwise_cons.1 h2).2]
    congr 1
    unfold shared_entries
    apply List.filterMap_congr
    intro x hx
    have hxb : same_entry x b = false := by
      rcases List.mem_cons.1 hx with rfl | hx
      · exact (same_entry_false_of_lt b x hba).2
      · apply same_entry_false_of_key_ne
        have hax := (List.pairwise_cons.1 h1).1 x hx
        have := (pair_lt_iff_keys b a).1 hba
        omega
    rw [List.find?_cons_of_neg _ (by rw [hxb]; simp)]
  | case5 shared a as b bs hab hba ih =>
    have hsame := same_entry_of_not_lt a b hab hba
    rw [shared_to_json, if_neg hab, if_neg hba,
      ih (List.pairwise_cons.1 h1).2 (List.pairwise_cons.1 h2).2, List.append_assoc]
    congr 1
    unfold shared_entries
    rw [List.filterMap_cons, List.find?_cons_of_pos _ hsame]
    simp only [Option.map_some', List.singleton_append, List.cons.injEq, true_and]
    apply List.filterMap_congr
    intro x hx
    have hxb : same_entry x b = false := by
      apply same_entry_false_of_key_ne
      have hax := (List.pairwise_cons.1 h1).1 x hx
      have : a.1 = b.1 := by
        unfold same_entry at hsame
        rw [decide_eq_true_eq] at hsame
        exact hsame.1
      omega
    rw [List.find?_cons_of_neg _ (by rw [hxb]; simp)]

theorem key_ordered_unique (m : List (Nat × PhysicalAccess)) (h : key_ordered m)
    (x y : Nat × PhysicalAccess) (hx : x ∈ m) (hy : y ∈ m) (hxy : x.1 = y.1) : x = y := by
  unfold key_ordered at h
  induction m with
  | nil => cases hx
  | cons e es ih =>
    obtain ⟨he, hes⟩ := List.pairwise_cons.1 h
    rcases List.mem_cons.1 hx with hxe | hxs
    · rcases List.mem_cons.1 hy with hye | hys
      · rw [hxe, hye]
      · have := he y hys
        rw [hxe] at hxy
        omega
    · rcases List.mem_cons.1 hy with hye | hys
      · have := he x hxs
        rw [hye] at hxy
        omega
      · exact ih hes hxs hys

/-- Two records stored under one key with one address are listed by the enumeration. -/
theorem mem_shared_entries (sv : Services) (l1 l2 : List (Nat × PhysicalAccess))
    (h2 : key_ordered l2) (k : Nat) (r1 r2 : PhysicalAccess)
    (hr1 : (k, r1) ∈ l1) (hr2 : (k, r2) ∈ l2) (hacc : r1.access = r2.access) :
    r1.to_json sv (some r2) ∈ shared_entries sv l1 l2 := by
  unfold shared_entries
  rw [List.mem_filterMap]
  refine ⟨(k, r1), hr1, ?_⟩
  have hsome : (l2.find? (same_entry (k, r1))).isSome = true := by
    rw [List.find?_isSome]
    exact ⟨(k, r2), hr2, by simp [same_entry, hacc]⟩
  obtain ⟨b, hb⟩ := Option.isSome_iff_exists.1 hsome
  have hbm : b ∈ l2 := List.mem_of_find?_eq_some hb
  have hbs : same_entry (k, r1) b = true := List.find?_some hb
  unfold same_entry at hbs
  rw [decide_eq_true_eq] at hbs
  have hbe : b = (k, r2) := key_ordered_unique l2 h2 b (k, r2) hbm hr2 hbs.1.symm
  rw [hb, hbe]
  rfl

/-! ## Unexpected sharing -/

theorem compare_pair_unexpected (sv : Services) (s1 s2 : Ascope) (d : Detection)
    (hcpu : s1.cpu_ ≠ s2.cpu_) (hcl : classify s1 s2 = (false, true)) :
    compare_pair sv s1 s2 d
      = { compared_scopes := d.compared_scopes + 1,
          shared_scopes := d.shared_scopes.incr false true,
          lst := d.lst ++ [incident_of sv s1 s2],
          warnings := d.warnings } := by
  unfold classify at hcl
  have ha : (shares string_lt s1.aread_ s1.awrite_ s2.aread_ s2.awrite_).isSome = false :=
    congrArg Prod.fst hcl
  have hc : (shares pair_lt s1.read_ s1.write_ s2.read_ s2.write_).isSome = true :=
    congrArg Prod.snd hcl
  unfold compare_pair
  rw [if_neg hcpu]
  simp only [ha, hc, Bool.not_false, Bool.and_self, if_true]
  rfl

theorem compare_pair_lst_mono (sv : Services) (s1 s2 : Ascope) (d : Detection)
    (x : Incident) (hx : x ∈ d.lst) : x ∈ (compare_pair sv s1 s2 d).lst := by
  unfold compare_pair
  split
  · exact hx
  · dsimp only
    split
    · exact List.mem_append_left _ hx
    · split
      · split <;> exact hx
      · exact hx

theorem inner_loop_lst_mono (sv : Services) (s1 : Ascope) (rest : List Ascope)
    (d : Detection) (x : Incident) (hx : x ∈ d.lst) : x ∈ (inner_loop sv s1 rest d).lst := by
  induction rest generalizing d with
  | nil => exact hx
  | cons s2 rest ih => exact ih _ (compare_pair_lst_mono sv s1 s2 d x hx)

theorem outer_loop_lst_mono (sv : Services) (scopes : List Ascope) (d : Detection)
    (x : Incident) (hx : x ∈ d.lst) : x ∈ (outer_loop sv scopes d).lst := by
  induction scopes generalizing d with
  | nil => exact hx
  | cons s1 rest ih => exact ih _ (inner_loop_lst_mono sv s1 rest d x hx)

theorem inner_loop_append (sv : Services) (s1 : Ascope) (l1 l2 : List Ascope)
    (d : Detection) :
    inner_loop sv s1 (l1 ++ l2) d = inner_loop sv s1 l2 (inner_loop sv s1 l1 d) := by
  induction l1 generalizing d with
  | nil => rfl
  | cons a as ih => exact ih _

/-- The incident of an unexpected pair is in the list the pairwise loop builds. -/
theorem incident_mem_outer_loop (sv : Services) (pre mid post : List Ascope)
    (s1 s2 : Ascope) (d : Detection)
    (hcpu : s1.cpu_ ≠ s2.cpu_) (hcl : classify s1 s2 = (false, true)) :
    incident_of sv s1 s2 ∈ (outer_loop sv (pre ++ s1 :: (mid ++ s2 :: post)) d).lst := by
  induction pre generalizing d with
  | nil =>
    rw [List.nil_append, outer_loop]
    apply outer_loop_lst_mono
    rw [inner_loop_append, inner_loop]
    apply inner_loop_lst_mono
    rw [compare_pair_unexpected sv s1 s2 _ hcpu hcl]
    exact List.mem_append_right _ (List.mem_singleton.2 rfl)
  | cons p pre ih =>
    rw [List.cons_append, outer_loop]
    exact ih _

theorem shares_isSome_false_of_disjoint (r1 w1 r2 w2 : List String)
    (hr1 : ascending r1) (hw1 : ascending w1) (hr2 : ascending r2) (hw2 : ascending w2)
    (h : ∀ x, x ∈ r1 ∨ x ∈ w1 → x ∉ r2 ∧ x ∉ w2) :
    (shares string_lt r1 w1 r2 w2).isSome = false := by
  have hno : ∀ l1 l2, ascending l1 → ascending l2 → (∀ x ∈ l1, x ∉ l2) →
      (intersects string_lt l1 l2).isSome = false := by
    intro l1 l2 h1 h2 hd
    rw [Bool.eq_false_iff]
    intro hs
    obtain ⟨a, ha, b, hb, hab⟩ := (intersects_isSome_iff string_lt id
      (fun a b => string_lt_iff a b) l1 l2 ((ascending_iff l1).1 h1)
      ((ascending_iff l2).1 h2)).1 hs
    simp only [id] at hab
    rw [← hab] at hb
    exact hd a ha hb
  rw [shares_isSome, hno r1 w2 hr1 hw2 (fun x hx => (h x (Or.inl hx)).2),
    hno w1 r2 hw1 hr2 (fun x hx => (h x (Or.inr hx)).1),
    hno w1 w2 hw1 hw2 (fun x hx => (h x (Or.inr hx)).2)]
  rfl

theorem shares_isSome_of_common_write (r1 w1 r2 w2 : List (Nat × PhysicalAccess))
    (hw1 : key_ordered w1) (hw2 : key_ordered w2) (k : Nat) (p1 p2 : PhysicalAccess)
    (h1 : (k, p1) ∈ w1) (h2 : (k, p2) ∈ w2) (hacc : p1.access = p2.access) :
    (shares pair_lt r1 w1 r2 w2).isSome = true := by
  have h3 : (intersects pair_lt w1 w2).isSome = true :=
    (intersects_isSome_iff pair_lt pair_key pair_lt_iff w1 w2
      (key_ordered_pair_key _ hw1) (key_ordered_pair_key _ hw2)).2
      ⟨(k, p1), h1, (k, p2), h2, by unfold pair_key; rw [hacc]⟩
  rw [shares_isSome, h3]
  simp

theorem scenario_a_replay :
    replay bare_services Tracker.init scenario_a = .ok scenario_a_tracker := rfl

theorem scenario_a_flush : flush scenario_a_tracker = [scenario_a_foo, scenario_a_bar] := by
  have h := flush_replay_eq bare_services scenario_a scenario_a_tracker scenario_a_replay
  rw [scenario_a_replay] at h
  simp only [Except.map, Except.ok.injEq] at h
  rw [h]
  rfl

theorem scenario_a_analyse :
    analyse bare_services false true scenario_a = .ok scenario_a_report := by
  unfold analyse
  rw [scenario_a_replay]
  simp only [scenario_a_flush]
  simp +decide [exit_report, outer_loop, inner_loop, compare_pair, scenario_a_foo,
    scenario_a_bar, shares, intersects, shared_to_json, Detection.init, scenario_a_report]

/-- C8 as stated fails: in `silent_trace` the scope `foo` on context 0 declares no
abstract access, so none in common with `bar` on context 1, and both store to `0x1000`;
`foo` is discarded at exit, no pair is compared and no incident is emitted. -/
theorem undeclared_scope_not_compared :
    analyse bare_services false true silent_trace = .ok silent_report := by
  unfold analyse
  have h : replay bare_services Tracker.init silent_trace
      = .ok { callstacks_ := [(0, { stack_ := [] }), (1, { stack_ := [] })],
              scopes_ := [scenario_a_bar] } := rfl
  rw [h]
  have hf : flush { callstacks_ := [(0, { stack_ := [] }), (1, { stack_ := [] })],
                    scopes_ := [scenario_a_bar] } = [scenario_a_bar] := by
    have h' := flush_replay_eq bare_services silent_trace _ h
    rw [h] at h'
    simp only [Except.map, Except.ok.injEq] at h'
    rw [h']
    rfl
  simp only [hf]
  simp +decide [exit_report, outer_loop, inner_loop, Detection.init, silent_report,
    scenario_a_bar]

/-- C8, amended. For every trace the analysis survives and every two completed scopes
`s1` before `s2` of the registry after the flush, of different contexts, whose declared
names are disjoint and whose `write_` maps both hold, under the masked key of `a`, a
record with address `a`: the pair is classified logically unshared, physically shared;
the pairwise loop counts it as compared in that histogram cell and appends one incident
naming both scopes; that incident is in the report; and its shared list has the entry
of the two records. Scenario A yields `scenario_a_report`: one compared pair, one
unshared/shared pair, one incident with one shared entry. -/
theorem unexpected_sharing_reported (sv : Services) (trace : List mtrace_entry)
    (t : Tracker) (h : replay sv Tracker.init trace = .ok t)
    (pre mid post : List Ascope) (s1 s2 : Ascope)
    (hreg : flush t = pre ++ s1 :: (mid ++ s2 :: post))
    (hcpu : s1.cpu_ ≠ s2.cpu_)
    (hnames : ∀ x ∈ s1.aread_ ++ s1.awrite_, x ∉ s2.aread_ ++ s2.awrite_)
    (a : Nat) (r1 r2 : PhysicalAccess)
    (hr1 : (a &&& addr_mask, r1) ∈ s1.write_) (hr2 : (a &&& addr_mask, r2) ∈ s2.write_)
    (ha1 : r1.access = a) (ha2 : r2.access = a) :
    classify s1 s2 = (false, true)
      ∧ (∀ d, compare_pair sv s1 s2 d
          = { compared_scopes := d.compared_scopes + 1,
              shared_scopes := d.shared_scopes.incr false true,
              lst := d.lst ++ [incident_of sv s1 s2],
              warnings := d.warnings })
      ∧ (∀ ascopes_, ∃ incidents,
          (exit_report sv ascopes_ true (flush t)).unexpected_sharing = some incidents
          ∧ incident_of sv s1 s2 ∈ incidents)
      ∧ r1.to_json sv (some r2) ∈ (incident_of sv s1 s2).shared
      ∧ analyse bare_services false true scenario_a = .ok scenario_a_report := by
  have hord := replay_ordered sv trace t h
  have h1 : s1.ordered := hord s1 (by rw [hreg]; simp)
  have h2 : s2.ordered := hord s2 (by rw [hreg]; simp)
  have hnames' : ∀ x, x ∈ s1.aread_ ∨ x ∈ s1.awrite_ →
      x ∉ s2.aread_ ∧ x ∉ s2.awrite_ := by
    intro x hx
    have hx' := hnames x (List.mem_append.2 hx)
    exact ⟨fun hm => hx' (List.mem_append_left _ hm),
      fun hm => hx' (List.mem_append_right _ hm)⟩
  have hcl : classify s1 s2 = (false, true) := by
    unfold classify
    rw [shares_isSome_false_of_disjoint _ _ _ _ h1.1 h1.2.1 h2.1 h2.2.1 hnames',
      shares_isSome_of_common_write _ _ _ _ h1.2.2.2 h2.2.2.2 _ r1 r2 hr1 hr2
        (ha1.trans ha2.symm)]
  refine ⟨hcl, fun d => compare_pair_unexpected sv s1 s2 d hcpu hcl, ?_, ?_,
    scenario_a_analyse⟩
  · intro ascopes_
    refine ⟨(outer_loop sv (flush t) Detection.init).lst, ?_, ?_⟩
    · simp only [exit_report, if_true]
    · rw [hreg]
      exact incident_mem_outer_loop sv pre mid post s1 s2 _ hcpu hcl
  · unfold incident_of
    dsimp only
    rw [shared_to_json_eq sv _ s1.write_ s2.write_ h1.2.2.2 h2.2.2.2]
    exact List.mem_append_right _
      (mem_shared_entries sv _ _ h2.2.2.2 _ r1 r2 hr1 hr2 (ha1.trans ha2.symm))

/-- C8 amended, at scenario A: `foo` and `bar` are the two scopes of the registry. -/
theorem unexpected_sharing_reported_witness :
    replay bare_services Tracker.init scenario_a = .ok scenario_a_tracker
      ∧ flush scenario_a_tracker = [scenario_a_foo, scenario_a_bar]
      ∧ classify scenario_a_foo scenario_a_bar = (false, true)
      ∧ (∃ incidents,
          (exit_report bare_services false true (flush scenario_a_tracker)).unexpected_sharing
            = some incidents
          ∧ incident_of bare_services scenario_a_foo scenario_a_bar ∈ incidents)
      ∧ analyse bare_services false true scenario_a = .ok scenario_a_report := by
  have h := unexpected_sharing_reported bare_services scenario_a scenario_a_tracker
    scenario_a_replay [] [] [] scenario_a_foo scenario_a_bar scenario_a_flush
    (by decide) (by decide) 0x1000
    { type := "", base := 0, access := 0x1000, pc := 7 }
    { type := "", base := 0, access := 0x1000, pc := 9 }
    (by decide) (by decide) rfl rfl
  exact ⟨scenario_a_replay, scenario_a_flush, h.1, h.2.2.1 false, h.2.2.2.2⟩

/-! ## The stack of a context, entry by entry -/

theorem current_set_current (l : List (Int × CallStack)) (cpu : Int) (cs : CallStack)
    (c : Int) : current (set_current cpu cs l) c = if c = cpu then cs else current l c := by
  induction l with
  | nil =>
    by_cases h : c = cpu
    · simp [set_current, current, h]
    · have h' : ¬ cpu = c := fun e => h e.symm
      simp [set_current, current, h, h']
  | cons e es ih =>
    unfold set_current
    by_cases he : e.1 = cpu
    · rw [if_pos he]
      by_cases h : c = cpu
      · simp [current, h]
      · have h' : ¬ cpu = c := fun e => h e.symm
        have h'' : ¬ e.1 = c := fun e' => h (e'.symm.trans he)
        simp [current, h, h', h'']
    · rw [if_neg he]
      by_cases hc : e.1 = c
      · have h : ¬ c = cpu := fun e' => he (hc.trans e')
        simp [current, hc, h]
      · rw [current, if_neg hc, ih]
        conv_rhs => rw [current, if_neg hc]

theorem stack_of_set_current (t : Tracker) (cpu : Int) (cs : CallStack) (scopes : List Ascope)
    (c : Int) :
    stack_of { callstacks_ := set_current cpu cs t.callstacks_, scopes_ := scopes } c
      = if c = cpu then cs.stack_ else stack_of t c := by
  unfold stack_of
  dsimp only
  rw [current_set_current]
  split <;> rfl

theorem stack_of_init (c : Int) : stack_of Tracker.init c = [] := rfl

/-- One entry changes the stack of every context by one `stack_step`. -/
theorem handle_stack_step (sv : Services) (t t' : Tracker) (entry : mtrace_entry)
    (h : handle sv t entry = .ok t') (c : Int) :
    stack_step sv (stack_of t c) (stack_of t' c) := by
  cases entry with
  | ascope a =>
    simp only [handle, CallStack.handle_ascope, CallStack.pop] at h
    by_cases hexit : a.exit = true
    · rw [if_pos hexit] at h
      cases hl : (current t.callstacks_ a.cpu).stack_.getLast? with
      | none => rw [hl] at h; cases h
      | some cur =>
        rw [hl] at h
        simp only [Except.ok.injEq] at h
        subst h
        rw [stack_of_set_current]
        by_cases hc : c = a.cpu
        · rw [if_pos hc, hc]
          exact stack_step.pop _ cur hl
        · rw [if_neg hc]
          exact stack_step.same _
    · rw [if_neg hexit] at h
      simp only [Except.ok.injEq] at h
      subst h
      rw [stack_of_set_current]
      by_cases hc : c = a.cpu
      · rw [if_pos hc, hc]
        exact stack_step.push _ _ _
      · rw [if_neg hc]
        exact stack_step.same _
  | avar cpu a =>
    simp only [handle, Except.ok.injEq] at h
    subst h
    rw [stack_of_set_current]
    by_cases hc : c = cpu
    · rw [if_pos hc, hc]
      unfold CallStack.handle_avar
      cases hl : (current t.callstacks_ cpu).stack_.getLast? with
      | none => exact stack_step.same _
      | some cur => exact stack_step.avar _ a cur hl
    · rw [if_neg hc]
      exact stack_step.same _
  | access cpu a =>
    simp only [handle, handle_access_eq] at h
    by_cases hemp : (current t.callstacks_ cpu).stack_.isEmpty = true
    · rw [if_pos hemp] at h
      simp only [Except.ok.injEq] at h
      subst h
      rw [stack_of_set_current]
      by_cases hc : c = cpu
      · rw [if_pos hc, hc]
        exact stack_step.same _
      · rw [if_neg hc]
        exact stack_step.same _
    · rw [if_neg hemp] at h
      cases hf : for_each_scope (frame_access sv a) (current t.callstacks_ cpu).stack_ with
      | error e => rw [hf] at h; cases h
      | ok stack =>
        rw [hf] at h
        simp only [Except.ok.injEq] at h
        subst h
        rw [stack_of_set_current]
        by_cases hc : c = cpu
        · rw [if_pos hc, hc]
          exact stack_step.access _ _ a hf
        · rw [if_neg hc]
          exact stack_step.same _

/-- A property of stacks that holds of the empty stack and is kept by every
`stack_step` holds of every stack after every trace. -/
theorem replay_stack_inv (sv : Services) (Q : List Ascope → Prop)
    (hstep : ∀ st st', stack_step sv st st' → Q st → Q st')
    (trace : List mtrace_entry) (t t' : Tracker) (ht : ∀ c, Q (stack_of t c))
    (h : replay sv t trace = .ok t') : ∀ c, Q (stack_of t' c) := by
  induction trace generalizing t with
  | nil =>
    simp only [replay, Except.ok.injEq] at h
    subst h
    exact ht
  | cons entry rest ih =>
    unfold replay at h
    cases hh : handle sv t entry with
    | error e => rw [hh] at h; cases h
    | ok t1 =>
      rw [hh] at h
      exact ih t1 (fun c => hstep _ _ (handle_stack_step sv t t1 entry hh c) (ht c)) h

theorem forall₂_getElem? {α : Type} (R : α → α → Prop) (l l' : List α)
    (h : List.Forall₂ R l l') (i : Nat) (s : α) (hs : l[i]? = some s) :
    ∃ s', l'[i]? = some s' ∧ R s s' := by
  induction h generalizing i with
  | nil => simp at hs
  | cons hab _ ih =>
    cases i with
    | zero =>
      simp only [List.getElem?_cons_zero, Option.some.injEq] at hs
      subst hs
      exact ⟨_, by simp, hab⟩
    | succ n =>
      simp only [List.getElem?_cons_succ] at hs ⊢
      exact ih n hs

/-- A frame below the top of the new stack is the frame at the same depth of the old
stack, after one `frame_step`. -/
theorem stack_step_getElem? (sv : Services) (st st' : List Ascope)
    (h : stack_step sv st st') (i : Nat) (s : Ascope) (hs : st[i]? = some s)
    (hi : i < st'.length) : ∃ s', st'[i]? = some s' ∧ frame_step sv s s' := by
  have hil : i < st.length := by
    by_contra hge
    rw [List.getElem?_eq_none (not_lt.1 hge)] at hs
    cases hs
  cases h with
  | same => exact ⟨s, hs, Or.inl rfl⟩
  | push name cpu =>
    refine ⟨s, ?_, Or.inl rfl⟩
    rw [List.getElem?_append_left hil]
    exact hs
  | pop cur hl =>
    refine ⟨s, ?_, Or.inl rfl⟩
    rw [List.length_dropLast] at hi
    rw [List.getElem?_dropLast, if_pos hi]
    exact hs
  | avar e cur hl =>
    have hst : st.dropLast ++ [cur] = st := List.dropLast_append_getLast? cur hl
    have hlen : st.dropLast.length = st.length - 1 := List.length_dropLast st
    by_cases hlt : i < st.dropLast.length
    · refine ⟨s, ?_, Or.inl rfl⟩
      rw [List.getElem?_append_left hlt, List.getElem?_dropLast, if_pos (by omega)]
      exact hs
    · have hieq : i = st.dropLast.length := by omega
      refine ⟨avar_scope e cur, ?_, Or.inr (Or.inl ⟨e, ?_⟩)⟩
      · rw [hieq]
        exact List.getElem?_concat_length _ _
      · rw [← hst, hieq, List.getElem?_concat_length] at hs
        simp only [Option.some.injEq] at hs
        rw [hs]
  | access _ e hf =>
    obtain ⟨s', hs', hR⟩ := forall₂_getElem? _ st st' (for_each_scope_ok _ _ _ hf) i s hs
    exact ⟨s', hs', Or.inr (Or.inr ⟨e, hR⟩)⟩

/-! ## Nested attribution -/

theorem frame_access_has_key_iff (sv : Services) (e : mtrace_access_entry) (s s' : Ascope)
    (h : frame_access sv e s = .ok s') (k : Nat) :
    has_key k s' ↔ has_key k s ∨ k = e.guest_addr &&& addr_mask := by
  unfold has_key
  cases hty : e.access_type with
  | mtrace_access_ld =>
    rw [frame_access_load sv e s hty] at h
    by_cases hc : map_count (e.guest_addr &&& addr_mask) s.write_ = true
    · simp only [hc, Bool.not_true, Bool.false_eq_true, if_false, Except.ok.injEq] at h
      rw [← h]
      have hkw := (map_count_iff _ _).1 hc
      constructor
      · exact fun hk => Or.inl hk
      · rintro (hk | hk)
        · exact hk
        · rw [hk]
          exact Or.inr hkw
    · simp only [hc, Bool.not_false, if_true, Except.ok.injEq] at h
      rw [← h]
      dsimp only
      rw [mem_keys_map_assign]
      tauto
  | mtrace_access_st =>
    rw [frame_access_store sv e s (Or.inl hty)] at h
    simp only [Except.ok.injEq] at h
    rw [← h]
    dsimp only
    rw [mem_keys_map_erase]
    by_cases hk : k = e.guest_addr &&& addr_mask
    · split
      · rw [mem_keys_map_assign]
        tauto
      · rename_i hc
        have hkw : e.guest_addr &&& addr_mask ∈ keys s.write_ := by
          apply (map_count_iff _ _).1
          simpa using hc
        rw [hk]
        tauto
    · split
      · rw [mem_keys_map_assign]
        tauto
      · tauto
  | mtrace_access_iw =>
    rw [frame_access_store sv e s (Or.inr hty)] at h
    simp only [Except.ok.injEq] at h
    rw [← h]
    dsimp only
    rw [mem_keys_map_erase]
    by_cases hk : k = e.guest_addr &&& addr_mask
    · split
      · rw [mem_keys_map_assign]
        tauto
      · rename_i hc
        have hkw : e.guest_addr &&& addr_mask ∈ keys s.write_ := by
          apply (map_count_iff _ _).1
          simpa using hc
        rw [hk]
        tauto
    · split
      · rw [mem_keys_map_assign]
        tauto
      · tauto
  | other code =>
    unfold frame_access access_scope at h
    rw [hty] at h
    cases h

theorem frame_step_has_key (sv : Services) (k : Nat) (s s' : Ascope)
    (h : frame_step sv s s') (hk : has_key k s) : has_key k s' := by
  rcases h with h | ⟨e, h⟩ | ⟨e, h⟩
  · rw [h]
    exact hk
  · unfold has_key at hk ⊢
    rw [h, (avar_scope_concrete e s).1, (avar_scope_concrete e s).2.1]
    exact hk
  · exact (frame_access_has_key_iff sv e s s' h k).2 (Or.inl hk)

theorem for_each_scope_total (body : Ascope → Except Err Ascope)
    (hbody : ∀ s, ∃ s', body s = .ok s') (l : List Ascope) :
    ∃ l', for_each_scope body l = .ok l' := by
  induction l with
  | nil => exact ⟨[], rfl⟩
  | cons a as ih =>
    obtain ⟨a', ha⟩ := hbody a
    obtain ⟨as', has⟩ := ih
    exact ⟨a' :: as', by rw [for_each_scope, ha, has]⟩

theorem replay_cons_ok (sv : Services) (t t1 : Tracker) (entry : mtrace_entry)
    (rest : List mtrace_entry) (h : handle sv t entry = .ok t1) :
    replay sv t (entry :: rest) = replay sv t1 rest := by
  rw [replay, h]

/-- A key held by the frame at depth `i` of a context stays in that frame for as long as
the stack of the context keeps more than `i` frames. -/
theorem replay_keeps_key (sv : Services) (k : Nat) (cpu : Int) (i : Nat)
    (later : List mtrace_entry) (t1 t2 : Tracker) (s : Ascope)
    (hs : (stack_of t1 cpu)[i]? = some s) (hk : has_key k s)
    (h : replay sv t1 later = .ok t2)
    (halive : ∀ n tp, replay sv t1 (later.take n) = .ok tp → i < (stack_of tp cpu).length) :
    ∃ s', (stack_of t2 cpu)[i]? = some s' ∧ has_key k s' := by
  induction later generalizing t1 s with
  | nil =>
    simp only [replay, Except.ok.injEq] at h
    subst h
    exact ⟨s, hs, hk⟩
  | cons entry rest ih =>
    cases hh : handle sv t1 entry with
    | error e => rw [replay, hh] at h; cases h
    | ok t1' =>
      rw [replay_cons_ok sv t1 t1' entry rest hh] at h
      have hi : i < (stack_of t1' cpu).length := by
        apply halive 1 t1'
        rw [List.take_succ_cons, List.take_zero, replay_cons_ok sv t1 t1' entry [] hh]
        rfl
      obtain ⟨s1, hs1, hstep⟩ := stack_step_getElem? sv _ _
        (handle_stack_step sv t1 t1' entry hh cpu) i s hs hi
      apply ih t1' s1 hs1 (frame_step_has_key sv k s s1 hstep hk) h
      intro n tp hn
      apply halive (n + 1) tp
      rw [List.take_succ_cons, replay_cons_ok sv t1 t1' entry _ hh]
      exact hn

/-- C11 (nested attribution). For every context whose stack is not empty and every
physical access of a known kind at address `a`: the entry is handled, the stack keeps
its depth, every frame of it (top and all ancestors) then holds the masked address in
`read_` or `write_`, and under every later trace the frame at each depth still holds it
for as long as the stack keeps more than that many frames (the frame has not exited). -/
theorem nested_attribution (sv : Services) (t : Tracker) (cpu : Int)
    (access : mtrace_access_entry) (hknown : known_kind access.access_type)
    (hne : stack_of t cpu ≠ []) :
    ∃ t1, handle sv t (.access cpu access) = .ok t1
      ∧ (stack_of t1 cpu).length = (stack_of t cpu).length
      ∧ (∀ s ∈ stack_of t1 cpu, has_key (access.guest_addr &&& addr_mask) s)
      ∧ ∀ later t2 i, i < (stack_of t1 cpu).length → replay sv t1 later = .ok t2 →
          (∀ n tp, replay sv t1 (later.take n) = .ok tp → i < (stack_of tp cpu).length) →
          ∃ s, (stack_of t2 cpu)[i]? = some s
            ∧ has_key (access.guest_addr &&& addr_mask) s := by
  obtain ⟨stack, hf⟩ := for_each_scope_total (frame_access sv access)
    (fun s => frame_access_known sv access s hknown) (stack_of t cpu)
  have hemp : (current t.callstacks_ cpu).stack_.isEmpty = false := by
    cases hst : (current t.callstacks_ cpu).stack_ with
    | nil => exact absurd hst hne
    | cons a as => rfl
  have hh : handle sv t (.access cpu access)
      = .ok { t with callstacks_ := set_current cpu ⟨stack⟩ t.callstacks_ } := by
    unfold stack_of at hf
    simp only [handle, handle_access_eq, hemp, Bool.false_eq_true, if_false, hf]
  have hst : stack_of { t with callstacks_ := set_current cpu ⟨stack⟩ t.callstacks_ } cpu
      = stack := by
    rw [stack_of_set_current, if_pos rfl]
  have hall : ∀ s ∈ stack, has_key (access.guest_addr &&& addr_mask) s := by
    intro s hs
    obtain ⟨s0, _, hbody⟩ := for_each_scope_mem _ _ _ hf s hs
    exact (frame_access_has_key_iff sv access s0 s hbody _).2 (Or.inr rfl)
  refine ⟨_, hh, ?_, ?_, ?_⟩
  · rw [hst]
    exact (List.Forall₂.length_eq (for_each_scope_ok _ _ _ hf)).symm
  · rw [hst]
    exact hall
  · intro later t2 i hi hrep halive
    rw [hst] at hi
    have hsi : (stack_of { t with callstacks_ := set_current cpu ⟨stack⟩ t.callstacks_ }
        cpu)[i]? = some stack[i] := by
      rw [hst]
      exact List.getElem?_eq_getElem hi
    exact replay_keeps_key sv _ cpu i later _ t2 stack[i] hsi
      (hall _ (List.getElem_mem hi)) hrep halive

/-- C11, at scenario C: with outer `A` and inner `B` active, the load at `0x2000` is in
both frames, and in the `read_` of both completed scopes after they exit. -/
theorem nested_attribution_witness :
    replay bare_services Tracker.init scenario_c_enter = .ok scenario_c_tracker
      ∧ (∃ t1, handle bare_services scenario_c_tracker (.access 0 scenario_c_load) = .ok t1
          ∧ (stack_of t1 0).length = 2
          ∧ (∀ s ∈ stack_of t1 0, has_key 0x2000 s))
      ∧ Except.map flush (replay bare_services Tracker.init
          (scenario_c_enter ++ .access 0 scenario_c_load :: scenario_c_rest))
          = .ok scenario_c_registry := by
  obtain ⟨t1, h1, h2, h3, _⟩ := nested_attribution bare_services scenario_c_tracker 0
    scenario_c_load (Or.inl rfl) (by decide)
  refine ⟨rfl, ⟨t1, h1, h2, h3⟩, ?_⟩
  rw [flush_replay_eq bare_services
    (scenario_c_enter ++ .access 0 scenario_c_load :: scenario_c_rest)
    { callstacks_ := [(0, { stack_ := [] })], scopes_ := scenario_c_registry } rfl]
  rfl

/-! ## Empty-scope discard -/

theorem pop_concat (stack : List Ascope) (cur : Ascope) (scopes_ : List Ascope) :
    CallStack.pop { stack_ := stack ++ [cur] } scopes_
      = .ok ({ stack_ := stack },
          if !cur.aread_.isEmpty || !cur.awrite_.isEmpty then scopes_ ++ [cur] else scopes_) := by
  unfold CallStack.pop
  simp only [List.getLast?_concat, List.dropLast_concat]

theorem declared_iff (s : Ascope) :
    (!s.aread_.isEmpty || !s.awrite_.isEmpty) = true ↔ declared s := by
  unfold declared
  cases s.aread_ <;> cases s.awrite_ <;> simp

/-- One entry keeps every completed scope of the registry declared. -/
theorem handle_registry_declared (sv : Services) (t t' : Tracker) (entry : mtrace_entry)
    (ht : ∀ s ∈ t.scopes_, declared s) (h : handle sv t entry = .ok t') :
    ∀ s ∈ t'.scopes_, declared s := by
  cases entry with
  | ascope a =>
    simp only [handle, CallStack.handle_ascope, CallStack.pop] at h
    by_cases hexit : a.exit = true
    · rw [if_pos hexit] at h
      cases hl : (current t.callstacks_ a.cpu).stack_.getLast? with
      | none => rw [hl] at h; cases h
      | some cur =>
        rw [hl] at h
        simp only [Except.ok.injEq] at h
        subst h
        intro s hs
        dsimp only at hs
        split at hs
        · rename_i hd
          rcases List.mem_append.1 hs with hs | hs
          · exact ht s hs
          · rw [List.mem_singleton] at hs
            rw [hs]
            exact (declared_iff cur).1 hd
        · exact ht s hs
    · rw [if_neg hexit] at h
      simp only [Except.ok.injEq] at h
      subst h
      exact ht
  | avar cpu a =>
    simp only [handle, Except.ok.injEq] at h
    subst h
    exact ht
  | access cpu a =>
    simp only [handle] at h
    cases hf : (current t.callstacks_ cpu).handle_access sv a with
    | error e => rw [hf] at h; cases h
    | ok cs =>
      rw [hf] at h
      simp only [Except.ok.injEq] at h
      subst h
      exact ht

theorem replay_registry_declared (sv : Services) (trace : List mtrace_entry)
    (t t' : Tracker) (ht : ∀ s ∈ t.scopes_, declared s)
    (h : replay sv t trace = .ok t') : ∀ s ∈ t'.scopes_, declared s := by
  induction trace generalizing t with
  | nil =>
    simp only [replay, Except.ok.injEq] at h
    subst h
    exact ht
  | cons entry rest ih =>
    cases hh : handle sv t entry with
    | error e => rw [replay, hh] at h; cases h
    | ok t1 =>
      rw [replay_cons_ok sv t t1 entry rest hh] at h
      exact ih t1 (handle_registry_declared sv t t1 entry ht hh) h

theorem foldl_destroy_declared (cs : List (Int × CallStack)) (scopes : List Ascope)
    (hr : ∀ s ∈ scopes, declared s) :
    ∀ s ∈ cs.foldl (fun scopes e => e.2.destroy scopes) scopes, declared s := by
  induction cs generalizing scopes with
  | nil => exact hr
  | cons e es ih =>
    rw [List.foldl_cons]
    apply ih
    intro s hs
    rw [show e.2 = { stack_ := e.2.stack_ } from rfl, CallStack.destroy_eq] at hs
    rcases List.mem_append.1 hs with hs | hs
    · exact hr s hs
    · exact (declared_iff s).1 (List.mem_filter.1 hs).2

/-- C12 (empty-scope discard). Exiting a frame whose `aread_` and `awrite_` are both
empty pops it and leaves the registry unchanged, whatever its concrete maps hold;
exiting a frame that declared an access pops it and appends that frame, as it is, at
the end of the registry; hence after every trace the analysis survives, and after the
flush, every entry of the registry has a non-empty `aread_` or `awrite_`. -/
theorem empty_scope_discarded (sv : Services) (stack : List Ascope) (cur : Ascope)
    (scopes_ : List Ascope) (e : mtrace_ascope_entry) (hexit : e.exit = true) :
    (¬ declared cur →
        CallStack.handle_ascope { stack_ := stack ++ [cur] } scopes_ e
          = .ok ({ stack_ := stack }, scopes_))
      ∧ (declared cur →
        CallStack.handle_ascope { stack_ := stack ++ [cur] } scopes_ e
          = .ok ({ stack_ := stack }, scopes_ ++ [cur]))
      ∧ ∀ trace t, replay sv Tracker.init trace = .ok t →
          (∀ s ∈ t.scopes_, declared s) ∧ ∀ s ∈ flush t, declared s := by
  refine ⟨?_, ?_, ?_⟩
  · intro hd
    have hb : (!cur.aread_.isEmpty || !cur.awrite_.isEmpty) = false := by
      rw [Bool.eq_false_iff]
      exact fun h => hd ((declared_iff cur).1 h)
    rw [CallStack.handle_ascope, if_pos hexit, pop_concat, hb]
    rfl
  · intro hd
    rw [CallStack.handle_ascope, if_pos hexit, pop_concat, (declared_iff cur).2 hd]
    rfl
  · intro trace t h
    have hreg := replay_registry_declared sv trace Tracker.init t
      (by intro s hs; cases hs) h
    exact ⟨hreg, foldl_destroy_declared t.callstacks_ t.scopes_ hreg⟩

/-- C12, at two inputs: `silent_frame`, which stored to a word and declared nothing, is
dropped by its exit; the frame `foo` of scenario A is appended. -/
theorem empty_scope_discarded_witness :
    CallStack.handle_ascope { stack_ := [] ++ [silent_frame] } [scenario_a_bar]
        ⟨true, "foo", 0⟩ = .ok ({ stack_ := [] }, [scenario_a_bar])
      ∧ CallStack.handle_ascope { stack_ := [] ++ [scenario_a_foo] } [scenario_a_bar]
        ⟨true, "foo", 0⟩ = .ok ({ stack_ := [] }, [scenario_a_bar] ++ [scenario_a_foo]) := by
  have h1 := (empty_scope_discarded bare_services [] silent_frame [scenario_a_bar]
    ⟨true, "foo", 0⟩ rfl).1 (by unfold declared; decide)
  have h2 := (empty_scope_discarded bare_services [] scenario_a_foo [scenario_a_bar]
    ⟨true, "foo", 0⟩ rfl).2.1 (by unfold declared; decide)
  exact ⟨h1, h2⟩

/-! ## Masking -/

theorem addr_mask_eq : addr_mask = 2 ^ 2 * (2 ^ 62 - 1) := by decide

/-- The key of an address: its 64-bit value with the low 2 bits cleared. -/
theorem and_addr_mask (a : Nat) : a &&& addr_mask = a % 2 ^ 64 / 4 * 4 := by
  have h4 : a % 2 ^ 64 / 4 * 4 = 2 ^ 2 * ((a % 2 ^ 64) >>> 2) := by
    rw [Nat.shiftRight_eq_div_pow]
    ring
  rw [h4, addr_mask_eq]
  apply Nat.eq_of_testBit_eq
  intro i
  rw [Nat.testBit_and, Nat.testBit_mul_pow_two, Nat.testBit_mul_pow_two,
    Nat.testBit_two_pow_sub_one, Nat.testBit_shiftRight, Nat.testBit_mod_two_pow]
  by_cases h : i ≥ 2
  · have e : 2 + (i - 2) = i := by omega
    rw [e]
    by_cases h2 : i < 64
    · have : i - 2 < 62 := by omega
      simp [h, h2, this]
    · have : ¬ i - 2 < 62 := by omega
      simp [h, h2, this]
  · simp [h]

theorem and_addr_mask_same_word (a b : Nat) (h : a / 4 = b / 4) :
    a &&& addr_mask = b &&& addr_mask := by
  rw [and_addr_mask, and_addr_mask]
  omega

theorem map_find_map_erase_of_ne {β : Type} (k k' : Nat) (m : List (Nat × β))
    (hne : k ≠ k') : map_find k (map_erase k' m) = map_find k m := by
  induction m with
  | nil => rfl
  | cons e es ih =>
    unfold map_erase at ih ⊢
    by_cases h : e.1 = k'
    · have hek : e.1 ≠ k := fun h' => hne (h'.symm.trans h)
      rw [List.filter_cons_of_neg (by simpa using h), ih, map_find, if_neg hek]
    · rw [List.filter_cons_of_pos (by simpa using h), map_find, map_find, ih]

/-- A physical access leaves the records of every other key as they were. -/
theorem frame_access_other_keys (sv : Services) (e : mtrace_access_entry) (s s' : Ascope)
    (h : frame_access sv e s = .ok s') (k : Nat) (hne : k ≠ e.guest_addr &&& addr_mask) :
    map_find k s'.read_ = map_find k s.read_ ∧ map_find k s'.write_ = map_find k s.write_ := by
  cases hty : e.access_type with
  | mtrace_access_ld =>
    rw [frame_access_load sv e s hty] at h
    split at h
    · simp only [Except.ok.injEq] at h
      rw [← h]
      exact ⟨map_find_map_assign_of_ne _ _ _ _ hne, rfl⟩
    · simp only [Except.ok.injEq] at h
      rw [← h]
      exact ⟨rfl, rfl⟩
  | mtrace_access_st =>
    rw [frame_access_store sv e s (Or.inl hty)] at h
    simp only [Except.ok.injEq] at h
    rw [← h]
    refine ⟨map_find_map_erase_of_ne _ _ _ hne, ?_⟩
    dsimp only
    split
    · exact map_find_map_assign_of_ne _ _ _ _ hne
    · rfl
  | mtrace_access_iw =>
    rw [frame_access_store sv e s (Or.inr hty)] at h
    simp only [Except.ok.injEq] at h
    rw [← h]
    refine ⟨map_find_map_erase_of_ne _ _ _ hne, ?_⟩
    dsimp only
    split
    · exact map_find_map_assign_of_ne _ _ _ _ hne
    · rfl
  | other code =>
    unfold frame_access access_scope at h
    rw [hty] at h
    cases h

theorem key_ordered_nodup (m : List (Nat × PhysicalAccess)) (h : key_ordered m) :
    (keys m).Nodup := by
  unfold key_ordered at h
  unfold keys List.Nodup
  rw [List.pairwise_map]
  exact h.imp (fun hab => Nat.ne_of_lt hab)

/-- A key that a key-ordered scope with disjoint key sets holds occupies one entry. -/
theorem one_entry_of_has_key (s : Ascope) (hord : s.ordered) (hdis : disjoint_keys s)
    (k : Nat) (hk : has_key k s) : (keys s.read_ ++ keys s.write_).count k = 1 := by
  apply List.count_eq_one_of_mem
  · rw [List.nodup_append]
    refine ⟨key_ordered_nodup _ hord.2.2.1, key_ordered_nodup _ hord.2.2.2, ?_⟩
    intro x hxr hxw
    exact hdis x hxr hxw
  · exact List.mem_append.2 hk

/-- C13 (masking). The key of an address `a` is `a & ~3` as a 64-bit value, that is `a`
modulo `2^64` with its low 2 bits cleared, so two addresses that differ only in their
low 2 bits have one key; a physical access of a known kind at `a` leaves the records of
every other key as they were; and after accesses of known kinds to two addresses of one
word, a frame (key-ordered, with disjoint key sets) holds that key in exactly one entry
of its two maps. -/
theorem masked_key (sv : Services) (s : Ascope) (e1 e2 : mtrace_access_entry)
    (h1 : known_kind e1.access_type) (h2 : known_kind e2.access_type)
    (hw : e1.guest_addr / 4 = e2.guest_addr / 4)
    (hord : s.ordered) (hdis : disjoint_keys s) :
    (∀ a, a &&& addr_mask = a % 2 ^ 64 / 4 * 4)
      ∧ e1.guest_addr &&& addr_mask = e2.guest_addr &&& addr_mask
      ∧ ∃ s1 s2, frame_access sv e1 s = .ok s1 ∧ frame_access sv e2 s1 = .ok s2
          ∧ frame_accesses sv s [e1, e2] = .ok s2
          ∧ (keys s1.read_ ++ keys s1.write_).count (e1.guest_addr &&& addr_mask) = 1
          ∧ (keys s2.read_ ++ keys s2.write_).count (e1.guest_addr &&& addr_mask) = 1
          ∧ ∀ k, k ≠ e1.guest_addr &&& addr_mask →
              map_find k s2.read_ = map_find k s.read_
              ∧ map_find k s2.write_ = map_find k s.write_ := by
  have hsame := and_addr_mask_same_word _ _ hw
  obtain ⟨s1, hs1⟩ := frame_access_known sv e1 s h1
  obtain ⟨s2, hs2⟩ := frame_access_known sv e2 s1 h2
  have hk1 : has_key (e1.guest_addr &&& addr_mask) s1 :=
    (frame_access_has_key_iff sv e1 s s1 hs1 _).2 (Or.inr rfl)
  have hk2 : has_key (e1.guest_addr &&& addr_mask) s2 :=
    (frame_access_has_key_iff sv e2 s1 s2 hs2 _).2 (Or.inl hk1)
  have ho1 := frame_access_ordered sv e1 s s1 hs1 hord
  have hd1 := frame_access_disjoint sv e1 s s1 hs1 hdis
  refine ⟨and_addr_mask, hsame, s1, s2, hs1, hs2, ?_,
    one_entry_of_has_key s1 ho1 hd1 _ hk1,
    one_entry_of_has_key s2 (frame_access_ordered sv e2 s1 s2 hs2 ho1)
      (frame_access_disjoint sv e2 s1 s2 hs2 hd1) _ hk2, ?_⟩
  · rw [frame_accesses_cons_ok sv e1 [e2] s s1 hs1, frame_accesses_cons_ok sv e2 [] s1 s2 hs2]
    rfl
  · intro k hk
    obtain ⟨ha, hb⟩ := frame_access_other_keys sv e1 s s1 hs1 k hk
    obtain ⟨hc, hd⟩ := frame_access_other_keys sv e2 s1 s2 hs2 k (by rw [← hsame]; exact hk)
    exact ⟨hc.trans ha, hd.trans hb⟩

/-- C13, at an input: a load of `0x1000` and a store to `0x1003` on a fresh frame leave
one entry, keyed `0x1000`. -/
theorem masked_key_witness :
    (0x1003 : Nat) &&& addr_mask = 0x1000
      ∧ frame_accesses bare_services (Ascope.new "foo" 0) one_word_accesses
          = .ok { name_ := "foo", cpu_ := 0, aread_ := [], awrite_ := [], read_ := [],
                  write_ := [(0x1000, { type := "", base := 0, access := 0x1003, pc := 8 })] }
      ∧ ∃ s2, frame_accesses bare_services (Ascope.new "foo" 0) one_word_accesses = .ok s2
          ∧ (keys s2.read_ ++ keys s2.write_).count 0x1000 = 1 := by
  obtain ⟨_, _, s1, s2, _, _, h, _, hc, _⟩ := masked_key bare_services (Ascope.new "foo" 0)
    ⟨.mtrace_access_ld, 0x1000, 7⟩ ⟨.mtrace_access_st, 0x1003, 8⟩
    (Or.inl rfl) (Or.inr (Or.inl rfl)) (by decide)
    ⟨List.Pairwise.nil, List.Pairwise.nil, List.Pairwise.nil, List.Pairwise.nil⟩
    (by intro k hk; cases hk)
  exact ⟨by decide, rfl, s2, h, hc⟩

/-! ## Exit on an empty stack, and unknown access kinds -/

/-- C14, at the failing input. A scope-exit entry on an empty stack reaches
`stack_.back()` on an empty vector, which is undefined; it is no defined no-op: the
handler returns no state, and a trace with one exit too many has no replay. -/
theorem exit_on_empty_stack_undefined :
    (∀ scopes_ name cpu,
        CallStack.handle_ascope { stack_ := [] } scopes_ ⟨true, name, cpu⟩
          = .error Err.undefined)
      ∧ replay bare_services Tracker.init double_exit_trace = .error Err.undefined := by
  constructor
  · intro scopes_ name cpu
    rfl
  · rfl

theorem handle_avar_empty (cs : CallStack) (avar : mtrace_avar_entry) (h : cs.stack_ = []) :
    cs.handle_avar avar = cs := by
  unfold CallStack.handle_avar
  rw [h]
  rfl

theorem handle_avar_concat (rest : List Ascope) (cur : Ascope) (avar : mtrace_avar_entry) :
    CallStack.handle_avar { stack_ := rest ++ [cur] } avar
      = { stack_ := rest ++ [avar_scope avar cur] } := by
  unfold CallStack.handle_avar
  simp only [List.getLast?_concat, List.dropLast_concat]

theorem nil_or_concat (l : List Ascope) : l = [] ∨ ∃ rest cur, l = rest ++ [cur] := by
  rcases List.eq_nil_or_concat l with h | ⟨rest, cur, h⟩
  · exact Or.inl h
  · exact Or.inr ⟨rest, cur, by rw [h, List.concat_eq_append]⟩

/-- C16 (variable-access frame rule). For every state of the analysis, a variable
access on a context is never fatal and changes at most the `aread_`/`awrite_` sets of
the frame on top of that context's stack: the registry, the stacks of the other
contexts, the depth of the stack, every frame below the top, and the name, context and
concrete maps of the top frame are as before; on an empty stack nothing changes. -/
theorem avar_frame_rule (sv : Services) (t : Tracker) (cpu : Int) (avar : mtrace_avar_entry) :
    ∃ t', handle sv t (.avar cpu avar) = .ok t'
      ∧ t'.scopes_ = t.scopes_
      ∧ (∀ c, c ≠ cpu → stack_of t' c = stack_of t c)
      ∧ (stack_of t' cpu).length = (stack_of t cpu).length
      ∧ (stack_of t' cpu).dropLast = (stack_of t cpu).dropLast
      ∧ (∀ cur, (stack_of t cpu).getLast? = some cur →
          (stack_of t' cpu).getLast? = some (avar_scope avar cur)
          ∧ (avar_scope avar cur).name_ = cur.name_
          ∧ (avar_scope avar cur).cpu_ = cur.cpu_
          ∧ (avar_scope avar cur).read_ = cur.read_
          ∧ (avar_scope avar cur).write_ = cur.write_)
      ∧ (stack_of t cpu = [] → stack_of t' cpu = [])
      ∧ ((current t.callstacks_ cpu).stack_ = [] →
          (current t.callstacks_ cpu).handle_avar avar = current t.callstacks_ cpu) := by
  refine ⟨⟨set_current cpu ((current t.callstacks_ cpu).handle_avar avar) t.callstacks_,
      t.scopes_⟩,
    rfl, rfl, ?_, ?_, ?_, ?_, ?_, fun h => handle_avar_empty _ avar h⟩
  · intro c hc
    rw [stack_of_set_current, if_neg hc]
  all_goals rw [stack_of_set_current, if_pos rfl]
  all_goals unfold stack_of
  all_goals
    rcases nil_or_concat (current t.callstacks_ cpu).stack_ with hst | ⟨rest, cur, hst⟩
  · rw [handle_avar_empty _ avar hst]
  · rw [show current t.callstacks_ cpu = { stack_ := rest ++ [cur] } from by rw [← hst],
      handle_avar_concat]
    simp
  · rw [handle_avar_empty _ avar hst]
  · rw [show current t.callstacks_ cpu = { stack_ := rest ++ [cur] } from by rw [← hst],
      handle_avar_concat]
    simp
  · intro c hc
    rw [hst] at hc
    cases hc
  · intro c hc
    rw [hst, List.getLast?_concat, Option.some.injEq] at hc
    subst hc
    rw [show current t.callstacks_ cpu = { stack_ := rest ++ [cur] } from by rw [← hst],
      handle_avar_concat, List.getLast?_concat]
    obtain ⟨h1, h2, h3, h4⟩ := avar_scope_concrete avar cur
    exact ⟨rfl, h3, h4, h1, h2⟩
  · intro _
    rw [handle_avar_empty _ avar hst]
    exact hst
  · intro hc
    rw [hst] at hc
    simp at hc

/-- C16, at an input: a read of `z` on the stack `two_frames` changes the read set of
`B` only. -/
theorem avar_frame_rule_witness :
    ∃ t', handle bare_services
        { callstacks_ := [(0, two_frames)], scopes_ := [scenario_a_bar] }
        (.avar 0 ⟨"z", false⟩) = .ok t'
      ∧ t'.scopes_ = [scenario_a_bar]
      ∧ (stack_of t' 0).dropLast = two_frames.stack_.dropLast
      ∧ (stack_of t' 0).getLast? = some
          { name_ := "B", cpu_ := 0, aread_ := ["z"], awrite_ := ["y"],
            read_ := [(0x2000, { type := "", base := 0, access := 0x2000, pc := 5 })],
            write_ := [] } := by
  obtain ⟨t', h, hs, _, _, hd, hl, _, _⟩ := avar_frame_rule bare_services
    { callstacks_ := [(0, two_frames)], scopes_ := [scenario_a_bar] } 0 ⟨"z", false⟩
  exact ⟨t', h, hs, hd, (hl _ rfl).1⟩

/-! ## The address a record stores -/

/-- C17 as stated fails: a store to `0x1003` on a fresh frame is kept under the key
`0x1000` with the address `0x1003` in the record; the address field is not the masked
address, its low 2 bits are set, and it differs from the key. -/
theorem stored_address_unmasked :
    Except.map (fun s => s.write_)
        (frame_access bare_services ⟨.mtrace_access_st, 0x1003, 9⟩ (Ascope.new "bar" 1))
      = .ok [(0x1000, { type := "", base := 0, access := 0x1003, pc := 9 })]
      ∧ (0x1003 : Nat) % 4 ≠ 0 ∧ (0x1003 : Nat) ≠ 0x1000 := by
  refine ⟨rfl, by decide, by decide⟩

theorem make_pa_access (sv : Services) (e : mtrace_access_entry) :
    (make_pa sv e).access = e.guest_addr := by
  unfold make_pa
  dsimp only
  split <;> rfl

theorem frame_access_records (sv : Services) (e : mtrace_access_entry) (s s' : Ascope)
    (h : frame_access sv e s = .ok s') (hs : records_mask_to_keys s) :
    records_mask_to_keys s' := by
  have hnew : ∀ x, x = (e.guest_addr &&& addr_mask, make_pa sv e) →
      x.2.access &&& addr_mask = x.1 := by
    intro x hx
    rw [hx]
    exact congrArg (· &&& addr_mask) (make_pa_access sv e)
  have hassign : ∀ m : List (Nat × PhysicalAccess),
      (∀ x ∈ m, x.2.access &&& addr_mask = x.1) →
      ∀ x ∈ map_assign (e.guest_addr &&& addr_mask) (make_pa sv e) m,
        x.2.access &&& addr_mask = x.1 := by
    intro m hm x hx
    rcases mem_map_assign _ _ _ _ hx with hx | hx
    · exact hnew x hx
    · exact hm x hx
  have herase : ∀ m : List (Nat × PhysicalAccess),
      (∀ x ∈ m, x.2.access &&& addr_mask = x.1) →
      ∀ x ∈ map_erase (e.guest_addr &&& addr_mask) m, x.2.access &&& addr_mask = x.1 := by
    intro m hm x hx
    exact hm x (List.mem_filter.1 hx).1
  obtain ⟨hr, hw⟩ := hs
  cases hty : e.access_type with
  | mtrace_access_ld =>
    rw [frame_access_load sv e s hty] at h
    split at h
    · simp only [Except.ok.injEq] at h
      rw [← h]
      exact ⟨hassign _ hr, hw⟩
    · simp only [Except.ok.injEq] at h
      rw [← h]
      exact ⟨hr, hw⟩
  | mtrace_access_st =>
    rw [frame_access_store sv e s (Or.inl hty)] at h
    simp only [Except.ok.injEq] at h
    rw [← h]
    refine ⟨herase _ hr, ?_⟩
    dsimp only
    split
    · exact hassign _ hw
    · exact hw
  | mtrace_access_iw =>
    rw [frame_access_store sv e s (Or.inr hty)] at h
    simp only [Except.ok.injEq] at h
    rw [← h]
    refine ⟨herase _ hr, ?_⟩
    dsimp only
    split
    · exact hassign _ hw
    · exact hw
  | other code =>
    unfold frame_access access_scope at h
    rw [hty] at h
    cases h

/-- What the tracker does keep: the stored address of every record of every frame and
of every completed scope masks to the key of the record. -/
theorem replay_records (sv : Services) (trace : List mtrace_entry) (t : Tracker)
    (h : replay sv Tracker.init trace = .ok t) :
    Tracker.all records_mask_to_keys t ∧ ∀ s ∈ flush t, records_mask_to_keys s := by
  have hall : Tracker.all records_mask_to_keys t := by
    refine replay_all records_mask_to_keys sv ?_ ?_ (frame_access_records sv) trace
      Tracker.init t (init_all _) h
    · intro name cpu
      constructor <;> intro e he <;> cases he
    · intro avar s hs
      unfold records_mask_to_keys
      rw [(avar_scope_concrete avar s).1, (avar_scope_concrete avar s).2.1]
      exact hs
  exact ⟨hall, flush_all _ t hall⟩

theorem and_addr_mask_mod (a : Nat) : (a &&& addr_mask) % 4 = 0 := by
  rw [and_addr_mask]
  omega

/-- C17, amended. The record a physical access builds holds the address of the access
as it is, unmasked; and after every trace the analysis survives, for every record held
in `read_` or `write_` of any frame, of any completed scope and of any scope of the
registry after the flush, the address field with its low 2 bits cleared equals the map
key the record is stored under, and that key has its low 2 bits clear. -/
theorem stored_address_masks_to_key (sv : Services) (trace : List mtrace_entry)
    (t : Tracker) (h : replay sv Tracker.init trace = .ok t) :
    (∀ e, (make_pa sv e).access = e.guest_addr)
      ∧ (∀ c ∈ t.callstacks_, ∀ s ∈ c.2.stack_, ∀ r ∈ s.read_ ++ s.write_,
          r.2.access &&& addr_mask = r.1 ∧ r.1 % 4 = 0)
      ∧ (∀ s ∈ t.scopes_, ∀ r ∈ s.read_ ++ s.write_,
          r.2.access &&& addr_mask = r.1 ∧ r.1 % 4 = 0)
      ∧ ∀ s ∈ flush t, ∀ r ∈ s.read_ ++ s.write_,
          r.2.access &&& addr_mask = r.1 ∧ r.1 % 4 = 0 := by
  obtain ⟨hall, hflush⟩ := replay_records sv trace t h
  have hrec : ∀ s, records_mask_to_keys s → ∀ r ∈ s.read_ ++ s.write_,
      r.2.access &&& addr_mask = r.1 ∧ r.1 % 4 = 0 := by
    intro s hs r hr
    have hm : r.2.access &&& addr_mask = r.1 := by
      rcases List.mem_append.1 hr with hr | hr
      · exact hs.1 r hr
      · exact hs.2 r hr
    refine ⟨hm, ?_⟩
    rw [← hm]
    exact and_addr_mask_mod _
  exact ⟨make_pa_access sv, fun c hc s hs => hrec s (hall.1 c hc s hs),
    fun s hs => hrec s (hall.2 s hs), fun s hs => hrec s (hflush s hs)⟩

/-- C17 amended, at an input: after `word_trace` the frame `bar` holds the address
`0x1003` under the key `0x1000`. -/
theorem stored_address_masks_to_key_witness :
    replay bare_services Tracker.init word_trace = .ok word_tracker
      ∧ ∀ r ∈ word_bar.read_ ++ word_bar.write_,
          r.2.access &&& addr_mask = r.1 ∧ r.1 % 4 = 0 := by
  have h : replay bare_services Tracker.init word_trace = .ok word_tracker := rfl
  exact ⟨h, (stored_address_masks_to_key bare_services word_trace word_tracker h).2.1
    (1, { stack_ := [word_bar] }) (by decide) word_bar (List.mem_singleton.2 rfl)⟩

/-! ## The histogram -/

theorem shared_entries_eq_map (sv : Services) (l1 l2 : List (Nat × PhysicalAccess)) :
    shared_entries sv l1 l2 = (matched l1 l2).map (render sv) := by
  unfold shared_entries matched
  rw [List.map_filterMap]
  apply List.filterMap_congr
  intro a _
  cases l2.find? (same_entry a) <;> rfl

theorem matched_cons (a : Nat × PhysicalAccess) (as l2 : List (Nat × PhysicalAccess)) :
    matched (a :: as) l2 =
      match l2.find? (same_entry a) with
      | none => matched as l2
      | some b => (a, b) :: matched as l2 := by
  unfold matched
  rw [List.filterMap_cons]
  cases l2.find? (same_entry a) <;> rfl

theorem mem_matched (l1 l2 : List (Nat × PhysicalAccess))
    (p : (Nat × PhysicalAccess) × (Nat × PhysicalAccess)) (hp : p ∈ matched l1 l2) :
    p.1 ∈ l1 ∧ p.2 ∈ l2 ∧ p.1.1 = p.2.1 := by
  unfold matched at hp
  obtain ⟨a, ha, hfa⟩ := List.mem_filterMap.1 hp
  cases hf : l2.find? (same_entry a) with
  | none => rw [hf] at hfa; cases hfa
  | some b =>
    rw [hf] at hfa
    simp only [Option.map_some', Option.some.injEq] at hfa
    subst hfa
    have hs : same_entry a b = true := List.find?_some hf
    unfold same_entry at hs
    rw [decide_eq_true_eq] at hs
    exact ⟨ha, List.mem_of_find?_eq_some hf, hs.1⟩

theorem mem_matched_keys (l1 l2 : List (Nat × PhysicalAccess)) (k : Nat)
    (hk : k ∈ matched_keys l1 l2) : k ∈ keys l1 ∧ k ∈ keys l2 := by
  unfold matched_keys at hk
  obtain ⟨p, hp, rfl⟩ := List.mem_map.1 hk
  obtain ⟨h1, h2, h3⟩ := mem_matched l1 l2 p hp
  refine ⟨List.mem_map.2 ⟨p.1, h1, rfl⟩, ?_⟩
  rw [h3]
  exact List.mem_map.2 ⟨p.2, h2, rfl⟩

theorem matched_keys_sublist (l1 l2 : List (Nat × PhysicalAccess)) :
    (matched_keys l1 l2).Sublist (keys l1) := by
  unfold matched_keys keys
  induction l1 with
  | nil => exact List.Sublist.slnil
  | cons a as ih =>
    rw [matched_cons]
    cases l2.find? (same_entry a) with
    | none => exact List.Sublist.cons _ ih
    | some b => exact List.Sublist.cons₂ _ ih

theorem matched_ne_nil (l1 l2 : List (Nat × PhysicalAccess))
    (a b : Nat × PhysicalAccess) (ha : a ∈ l1) (hb : b ∈ l2) (hab : same_entry a b = true) :
    matched l1 l2 ≠ [] := by
  have hsome : (l2.find? (same_entry a)).isSome = true := by
    rw [List.find?_isSome]
    exact ⟨b, hb, hab⟩
  obtain ⟨b', hb'⟩ := Option.isSome_iff_exists.1 hsome
  have hm : (a, b') ∈ matched l1 l2 := by
    unfold matched
    exact List.mem_filterMap.2 ⟨a, ha, by rw [hb']; rfl⟩
  exact List.ne_nil_of_mem hm

theorem matched_ne_nil_of_intersects (l1 l2 : List (Nat × PhysicalAccess))
    (h1 : key_ordered l1) (h2 : key_ordered l2)
    (h : (intersects pair_lt l1 l2).isSome = true) : matched l1 l2 ≠ [] := by
  obtain ⟨a, ha, b, hb, hab⟩ := (intersects_isSome_iff pair_lt pair_key pair_lt_iff l1 l2
    (key_ordered_pair_key _ h1) (key_ordered_pair_key _ h2)).1 h
  apply matched_ne_nil l1 l2 a b ha hb
  unfold pair_key at hab
  have hab' : (a.1, a.2.access) = (b.1, b.2.access) := hab
  simp only [Prod.mk.injEq] at hab'
  unfold same_entry
  rw [decide_eq_true_eq]
  exact hab'

/-- C19 (no duplicate evidence). For every pair of scopes with key-ordered maps that
each have disjoint `read_` and `write_` key sets: the shared list of their incident is
the rendering of the entries matched by the three enumerations `(s1.read, s2.write)`,
`(s1.write, s2.read)`, `(s1.write, s2.write)`; the keys of each enumeration are common
keys of its two maps; the three key lists are pairwise disjoint and no key occurs twice
in their concatenation; and when the concrete sharing test succeeds the shared list is
not empty. -/
theorem no_duplicate_evidence (sv : Services) (s1 s2 : Ascope)
    (hd1 : disjoint_keys s1) (hd2 : disjoint_keys s2)
    (hr1 : key_ordered s1.read_) (hw1 : key_ordered s1.write_)
    (hr2 : key_ordered s2.read_) (hw2 : key_ordered s2.write_) :
    (incident_of sv s1 s2).shared
        = (matched s1.read_ s2.write_ ++ matched s1.write_ s2.read_
            ++ matched s1.write_ s2.write_).map (render sv)
      ∧ (∀ k ∈ matched_keys s1.read_ s2.write_, k ∈ keys s1.read_ ∧ k ∈ keys s2.write_)
      ∧ (∀ k ∈ matched_keys s1.write_ s2.read_, k ∈ keys s1.write_ ∧ k ∈ keys s2.read_)
      ∧ (∀ k ∈ matched_keys s1.write_ s2.write_,
          k ∈ keys s1.write_ ∧ k ∈ keys s2.write_)
      ∧ (matched_keys s1.read_ s2.write_).Disjoint (matched_keys s1.write_ s2.read_)
      ∧ (matched_keys s1.read_ s2.write_).Disjoint (matched_keys s1.write_ s2.write_)
      ∧ (matched_keys s1.write_ s2.read_).Disjoint (matched_keys s1.write_ s2.write_)
      ∧ (matched_keys s1.read_ s2.write_ ++ matched_keys s1.write_ s2.read_
            ++ matched_keys s1.write_ s2.write_).Nodup
      ∧ ((shares pair_lt s1.read_ s1.write_ s2.read_ s2.write_).isSome = true →
          (incident_of sv s1 s2).shared ≠ []) := by
  have hshared : (incident_of sv s1 s2).shared
      = (matched s1.read_ s2.write_ ++ matched s1.write_ s2.read_
          ++ matched s1.write_ s2.write_).map (render sv) := by
    unfold incident_of
    dsimp only
    rw [shared_to_json_eq sv _ _ _ hw1 hw2, shared_to_json_eq sv _ _ _ hw1 hr2,
      shared_to_json_eq sv _ _ _ hr1 hw2, List.nil_append, shared_entries_eq_map,
      shared_entries_eq_map, shared_entries_eq_map, List.map_append, List.map_append]
  have h12 : (matched_keys s1.read_ s2.write_).Disjoint (matched_keys s1.write_ s2.read_) :=
    fun k ha hb => hd1 k (mem_matched_keys _ _ k ha).1 (mem_matched_keys _ _ k hb).1
  have h13 : (matched_keys s1.read_ s2.write_).Disjoint (matched_keys s1.write_ s2.write_) :=
    fun k ha hb => hd1 k (mem_matched_keys _ _ k ha).1 (mem_matched_keys _ _ k hb).1
  have h23 : (matched_keys s1.write_ s2.read_).Disjoint (matched_keys s1.write_ s2.write_) :=
    fun k ha hb => hd2 k (mem_matched_keys _ _ k ha).2 (mem_matched_keys _ _ k hb).2
  have n1 := List.Nodup.sublist (matched_keys_sublist s1.read_ s2.write_)
    (key_ordered_nodup _ hr1)
  have n2 := List.Nodup.sublist (matched_keys_sublist s1.write_ s2.read_)
    (key_ordered_nodup _ hw1)
  have n3 := List.Nodup.sublist (matched_keys_sublist s1.write_ s2.write_)
    (key_ordered_nodup _ hw1)
  refine ⟨hshared, mem_matched_keys _ _, mem_matched_keys _ _, mem_matched_keys _ _,
    h12, h13, h23, ?_, ?_⟩
  · rw [List.nodup_append, List.nodup_append]
    refine ⟨⟨n1, n2, h12⟩, n3, ?_⟩
    intro k hk hc
    rcases List.mem_append.1 hk with hk | hk
    · exact h13 hk hc
    · exact h23 hk hc
  · intro hs
    rw [shares_isSome] at hs
    rw [hshared]
    intro hnil
    have hnil' := List.map_eq_nil_iff.1 hnil
    simp only [List.append_eq_nil] at hnil'
    rcases Bool.or_eq_true _ _ ▸ hs with hs | hs
    · rcases Bool.or_eq_true _ _ ▸ hs with hs | hs
      · exact matched_ne_nil_of_intersects _ _ hr1 hw2 hs hnil'.1.1
      · exact matched_ne_nil_of_intersects _ _ hw1 hr2 hs hnil'.1.2
    · exact matched_ne_nil_of_intersects _ _ hw1 hw2 hs hnil'.2

/-- C19, at an input: `swap_left` against `swap_right`; the one common key `0x2000`,
written by the first and read by the second, is listed once. -/
theorem no_duplicate_evidence_witness :
    (matched_keys swap_left.read_ swap_right.write_
        ++ matched_keys swap_left.write_ swap_right.read_
        ++ matched_keys swap_left.write_ swap_right.write_) = [0x2000]
      ∧ (matched_keys swap_left.read_ swap_right.write_
        ++ matched_keys swap_left.write_ swap_right.read_
        ++ matched_keys swap_left.write_ swap_right.write_).Nodup
      ∧ (incident_of bare_services swap_left swap_right).shared ≠ [] := by
  have h := no_duplicate_evidence bare_services swap_left swap_right
    (by unfold disjoint_keys; decide) (by unfold disjoint_keys; decide)
    (by unfold key_ordered; decide) (by unfold key_ordered; decide)
    (by unfold key_ordered; decide) (by unfold key_ordered; decide)
  refine ⟨by decide, h.2.2.2.2.2.2.2.1, h.2.2.2.2.2.2.2.2 ?_⟩
  simp +decide [shares, intersects, swap_left, swap_right]

/-! ## Ancestor containment -/

theorem frame_access_write_keys (sv : Services) (e : mtrace_access_entry) (s s' : Ascope)
    (h : frame_access sv e s = .ok s') (k : Nat) :
    k ∈ keys s'.write_ ↔
      k ∈ keys s.write_ ∨ (write_like e.access_type ∧ k = e.guest_addr &&& addr_mask) := by
  have hstore : write_like e.access_type →
      (k ∈ keys s'.write_ ↔
        k ∈ keys s.write_ ∨ (write_like e.access_type ∧ k = e.guest_addr &&& addr_mask)) := by
    intro hw
    rw [frame_access_store sv e s hw] at h
    simp only [Except.ok.injEq] at h
    rw [← h]
    dsimp only
    split
    · rw [mem_keys_map_assign]
      tauto
    · rename_i hc
      have hkw : e.guest_addr &&& addr_mask ∈ keys s.write_ := by
        apply (map_count_iff _ _).1
        simpa using hc
      constructor
      · exact fun hk => Or.inl hk
      · rintro (hk | ⟨_, hk⟩)
        · exact hk
        · rw [hk]
          exact hkw
  cases hty : e.access_type with
  | mtrace_access_ld =>
    have hnw : ¬ write_like e.access_type := by
      rintro (hw | hw) <;> rw [hty] at hw <;> cases hw
    rw [hty] at hnw
    rw [frame_access_load sv e s hty] at h
    split at h
    · simp only [Except.ok.injEq] at h
      rw [← h]
      tauto
    · simp only [Except.ok.injEq] at h
      rw [← h]
      tauto
  | mtrace_access_st =>
    rw [← hty]
    exact hstore (Or.inl hty)
  | mtrace_access_iw =>
    rw [← hty]
    exact hstore (Or.inr hty)
  | other code =>
    unfold frame_access access_scope at h
    rw [hty] at h
    cases h

theorem frame_access_encloses (sv : Services) (e : mtrace_access_entry)
    (x y x' y' : Ascope) (hxy : encloses x y)
    (hx : frame_access sv e x = .ok x') (hy : frame_access sv e y = .ok y') :
    encloses x' y' := by
  obtain ⟨hw, hk⟩ := hxy
  constructor
  · intro k hky
    rw [frame_access_write_keys sv e x x' hx]
    rcases (frame_access_write_keys sv e y y' hy k).1 hky with h | h
    · exact Or.inl (hw k h)
    · exact Or.inr h
  · intro k hky
    rw [frame_access_has_key_iff sv e x x' hx]
    rcases (frame_access_has_key_iff sv e y y' hy k).1 hky with h | h
    · exact Or.inl (hk k h)
    · exact Or.inr h

theorem forall₂_mem_right {α : Type} (F : α → α → Prop) (l l' : List α)
    (h : List.Forall₂ F l l') (b' : α) (hb : b' ∈ l') : ∃ b ∈ l, F b b' := by
  induction h with
  | nil => cases hb
  | cons hab _ ih =>
    rcases List.mem_cons.1 hb with rfl | hb
    · exact ⟨_, List.mem_cons_self _ _, hab⟩
    · obtain ⟨b, hbl, hF⟩ := ih hb
      exact ⟨b, List.mem_cons_of_mem _ hbl, hF⟩

theorem pairwise_forall₂ {α : Type} (R F : α → α → Prop)
    (hRF : ∀ x y x' y', R x y → F x x' → F y y' → R x' y') (l l' : List α)
    (h : List.Forall₂ F l l') (hl : l.Pairwise R) : l'.Pairwise R := by
  induction h with
  | nil => exact List.Pairwise.nil
  | cons hab hrest ih =>
    obtain ⟨ha, hp⟩ := List.pairwise_cons.1 hl
    refine List.pairwise_cons.2 ⟨?_, ih hp⟩
    intro b' hb'
    obtain ⟨b, hb, hF⟩ := forall₂_mem_right F _ _ hrest b' hb'
    exact hRF _ _ _ _ (ha b hb) hab hF

/-- Every `stack_step` keeps each frame's key sets contained in those of the frames
below it. -/
theorem stack_step_encloses (sv : Services) (st st' : List Ascope)
    (h : stack_step sv st st') (hst : st.Pairwise encloses) : st'.Pairwise encloses := by
  cases h with
  | same => exact hst
  | push name cpu =>
    rw [List.pairwise_append]
    refine ⟨hst, List.pairwise_singleton _ _, ?_⟩
    intro a _ b hb
    rw [List.mem_singleton] at hb
    rw [hb]
    constructor
    · intro k hk
      simp [Ascope.new, keys] at hk
    · intro k hk
      simp [has_key, Ascope.new, keys] at hk
  | pop cur hl => exact List.Pairwise.sublist (List.dropLast_sublist st) hst
  | avar e cur hl =>
    have hsplit : st.dropLast ++ [cur] = st := List.dropLast_append_getLast? cur hl
    rw [← hsplit, List.pairwise_append] at hst
    obtain ⟨hd, _, hc⟩ := hst
    rw [List.pairwise_append]
    refine ⟨hd, List.pairwise_singleton _ _, ?_⟩
    intro a ha b hb
    rw [List.mem_singleton] at hb
    have hac := hc a ha cur (List.mem_singleton.2 rfl)
    obtain ⟨hr, hw, _, _⟩ := avar_scope_concrete e cur
    rw [hb]
    unfold encloses has_key at hac ⊢
    rw [hr, hw]
    exact hac
  | access _ e hf =>
    exact pairwise_forall₂ encloses (fun s s' => frame_access sv e s = .ok s')
      (fun x y x' y' hxy hx hy => frame_access_encloses sv e x y x' y' hxy hx hy)
      st st' (for_each_scope_ok _ _ _ hf) hst

/-- C20 (ancestor containment). From the empty analysis, after every trace that the
analysis survives, for any two frames on the stack of one context with `x` below `y`
(`x` encloses `y`): every key of `y.write_` is a key of `x.write_`, and every key of
`y.read_` or `y.write_` is a key of `x.read_` or `x.write_`. -/
theorem ancestor_containment (sv : Services) (trace : List mtrace_entry) (t : Tracker)
    (h : replay sv Tracker.init trace = .ok t) (cpu : Int) (i j : Nat) (x y : Ascope)
    (hij : i < j) (hx : (stack_of t cpu)[i]? = some x) (hy : (stack_of t cpu)[j]? = some y) :
    (∀ k, k ∈ keys y.write_ → k ∈ keys x.write_)
      ∧ ∀ k, k ∈ keys y.read_ ∨ k ∈ keys y.write_ →
          k ∈ keys x.read_ ∨ k ∈ keys x.write_ := by
  have hp : (stack_of t cpu).Pairwise encloses :=
    replay_stack_inv sv (fun st => st.Pairwise encloses) (stack_step_encloses sv) trace
      Tracker.init t (fun c => by rw [stack_of_init]; exact List.Pairwise.nil) h cpu
  obtain ⟨hi, hxi⟩ := List.getElem?_eq_some.1 hx
  obtain ⟨hj, hyj⟩ := List.getElem?_eq_some.1 hy
  have hxy := List.pairwise_iff_getElem.1 hp i j hi hj hij
  rw [hxi, hyj] at hxy
  exact hxy

/-- C20, at an input: after `nested_trace` the keys of inner `B` are among those of
outer `A`. -/
theorem ancestor_containment_witness :
    replay bare_services Tracker.init nested_trace
        = .ok { callstacks_ := [(0, { stack_ := [nested_outer, nested_inner] })],
                scopes_ := [] }
      ∧ (∀ k, k ∈ keys nested_inner.write_ → k ∈ keys nested_outer.write_)
      ∧ ∀ k, k ∈ keys nested_inner.read_ ∨ k ∈ keys nested_inner.write_ →
          k ∈ keys nested_outer.read_ ∨ k ∈ keys nested_outer.write_ := by
  have h : replay bare_services Tracker.init nested_trace
      = .ok { callstacks_ := [(0, { stack_ := [nested_outer, nested_inner] })],
              scopes_ := [] } := rfl
  exact ⟨h, ancestor_containment bare_services nested_trace _ h 0 0 1 nested_outer
    nested_inner (by decide) rfl rfl⟩

end AbstractSharing
